/-
Verification of the `scripts/add_string_extension_to_xcode.py` utility.

The script patches an Xcode project descriptor (`project.pbxproj`) by four
`re.sub` substitutions.  Three of the patterns are literal strings (every
regex metacharacter in them is escaped); the fourth interleaves literal
pieces with `\s+` whitespace runs.  Each substitution replaces a match `m`
by `m ++ ins` for a fixed inserted text `ins`, i.e. it inserts `ins` after
every leftmost non-overlapping match.

We embed the text transformation over `List Char`:
  * `Tok` is a pattern token: a literal piece, or a `\s+` run.
  * `matchToks` matches a token list at the head of a text, with maximal
    munch for whitespace runs.  For the patterns of the script this agrees
    with Python's greedy backtracking matcher, because in every pattern a
    whitespace run is immediately followed by a literal starting with a
    non-whitespace character (so no shorter run can ever succeed).
  * `reSubA` is the global leftmost non-overlapping substitution, as
    performed by `re.sub` with replacement `\1 ++ ins`.

The `__main__` block (existence check, backup, patch, restore on failure)
is embedded as `runMain` over an explicit file-system state
`String → Option (List Char)`, producing the trace of states after each
file write, the exit code and the stderr lines.  A possible exception
during the patch (including a partial write) is modelled by an optional
`fault` argument carrying the descriptor content at the moment the
exception is raised.
-/
import Mathlib

set_option maxRecDepth 100000

namespace XcodePatch

/-- ASCII whitespace as matched by Python's `\s` (` `, `\t`, `\n`, `\r`,
`\x0b`, `\x0c`).  Python's `\s` additionally matches some rarer Unicode
whitespace code points; the descriptors and patterns involved here are
ASCII, and none of the theorems below depends on the extension. -/
def isPySpace (c : Char) : Bool :=
  c = ' ' || c = '\t' || c = '\n' || c = '\r' || c = '\x0b' || c = '\x0c'

/-- A pattern token: a literal piece of the regex (all metacharacters in the
script's patterns are escaped), or a `\s+` whitespace run. -/
inductive Tok where
  | lit : List Char → Tok
  | ws : Tok

/-- Match a literal at the head of a text; returns the rest. -/
def matchLit : List Char → List Char → Option (List Char)
  | [], s => some s
  | _ :: _, [] => none
  | a :: as, b :: bs => if a = b then matchLit as bs else none

/-- Match a token list at the head of a text, returning the matched part and
the rest.  `\s+` is matched with maximal munch. -/
def matchToks : List Tok → List Char → Option (List Char × List Char)
  | [], s => some ([], s)
  | Tok.lit l :: ts, s =>
    match matchLit l s with
    | none => none
    | some r =>
      match matchToks ts r with
      | none => none
      | some (m, r2) => some (l ++ m, r2)
  | Tok.ws :: ts, s =>
    let run := s.takeWhile isPySpace
    if run.isEmpty then none
    else
      match matchToks ts (s.dropWhile isPySpace) with
      | none => none
      | some (m, r2) => some (run ++ m, r2)

theorem matchLit_eq : ∀ (l s r : List Char), matchLit l s = some r → l ++ r = s
  | [], s, r => by simp [matchLit]; intro h; simp [h]
  | a :: as, [], r => by simp [matchLit]
  | a :: as, b :: bs, r => by
    simp only [matchLit]
    split
    · rename_i hab
      intro h
      have := matchLit_eq as bs r h
      simp [hab, this]
    · intro h; cases h

theorem matchLit_self (l : List Char) : ∀ z, matchLit l (l ++ z) = some z := by
  induction l with
  | nil => intro z; simp [matchLit]
  | cons a as ih => intro z; simp [matchLit, ih]

theorem matchToks_eq :
    ∀ (ts : List Tok) (s m r : List Char), matchToks ts s = some (m, r) → m ++ r = s := by
  intro ts
  induction ts with
  | nil => intro s m r h; simp [matchToks] at h; simp [h.1, h.2]
  | cons t ts ih =>
    intro s m r h
    cases t with
    | lit l =>
      simp only [matchToks] at h
      cases hl : matchLit l s with
      | none => rw [hl] at h; cases h
      | some r1 =>
        rw [hl] at h
        dsimp only at h
        cases hm : matchToks ts r1 with
        | none => rw [hm] at h; cases h
        | some p =>
          obtain ⟨m2, r2⟩ := p
          rw [hm] at h
          simp at h
          have h1 := matchLit_eq l s r1 hl
          have h2 := ih r1 m2 r2 hm
          rw [← h.1, ← h.2, ← h1, ← h2, List.append_assoc]
    | ws =>
      simp only [matchToks] at h
      by_cases hrun : (s.takeWhile isPySpace).isEmpty
      · simp [hrun] at h
      · simp only [hrun, if_neg, Bool.false_eq_true, not_false_iff, ite_false] at h
        cases hm : matchToks ts (s.dropWhile isPySpace) with
        | none => rw [hm] at h; cases h
        | some p =>
          obtain ⟨m2, r2⟩ := p
          rw [hm] at h
          simp at h
          have h2 := ih _ m2 r2 hm
          rw [← h.1, ← h.2, List.append_assoc, h2, List.takeWhile_append_dropWhile]

/-- Fuel-driven scan of the global leftmost non-overlapping substitution.
One unit of fuel is spent per step, and each step consumes at least one
character, so `fuel = s.length` always suffices (`reSubGo_fuel`); the
out-of-fuel branch is therefore unreachable from `reSubA`. -/
def reSubGo (pat : List Tok) (ins : List Char) : Nat → List Char → List Char
  | _, [] => []
  | 0, c :: rest => c :: rest
  | fuel + 1, c :: rest =>
    match matchToks pat (c :: rest) with
    | some (m, r) =>
      if m = [] then ins ++ c :: reSubGo pat ins fuel rest
      else m ++ ins ++ reSubGo pat ins fuel r
    | none => c :: reSubGo pat ins fuel rest

/-- Global leftmost non-overlapping substitution that replaces each match `m`
of `pat` by `m ++ ins`: the embedding of
`re.sub(pat, r'\1' + ins, s)` where the whole pattern is group 1.
The empty-match branch of the scan is unreachable for the script's patterns
(each contains a nonempty literal) and mirrors `re.sub`'s advance-by-one. -/
def reSubA (pat : List Tok) (ins : List Char) (s : List Char) : List Char :=
  reSubGo pat ins s.length s

/-- The scan does not depend on the exact amount of fuel, as long as there is
enough of it. -/
theorem reSubGo_fuel (pat : List Tok) (ins : List Char) :
    ∀ (n : Nat) (s : List Char) (fuel1 fuel2 : Nat), s.length ≤ n →
      s.length ≤ fuel1 → s.length ≤ fuel2 →
      reSubGo pat ins fuel1 s = reSubGo pat ins fuel2 s := by
  intro n
  induction n with
  | zero =>
    intro s fuel1 fuel2 hn _ _
    have : s = [] := List.length_eq_zero.mp (Nat.le_zero.mp hn)
    subst this
    cases fuel1 <;> cases fuel2 <;> simp [reSubGo]
  | succ n ih =>
    intro s fuel1 fuel2 hn h1 h2
    cases s with
    | nil => cases fuel1 <;> cases fuel2 <;> simp [reSubGo]
    | cons c rest =>
      simp only [List.length_cons] at hn h1 h2
      obtain ⟨f1, rfl⟩ : ∃ f1, fuel1 = f1 + 1 := ⟨fuel1 - 1, by omega⟩
      obtain ⟨f2, rfl⟩ : ∃ f2, fuel2 = f2 + 1 := ⟨fuel2 - 1, by omega⟩
      simp only [reSubGo]
      cases hmt : matchToks pat (c :: rest) with
      | none =>
        have := ih rest f1 f2 (by omega) (by omega) (by omega)
        rw [this]
      | some p =>
        obtain ⟨m, r⟩ := p
        have hmr := matchToks_eq pat (c :: rest) m r hmt
        have hlen : m.length + r.length = rest.length + 1 := by
          have := congrArg List.length hmr; simpa using this
        by_cases hm : m = []
        · have := ih rest f1 f2 (by omega) (by omega) (by omega)
          simp [hm, this]
        · have hmpos : 0 < m.length := List.length_pos.mpr hm
          have := ih r f1 f2 (by omega) (by omega) (by omega)
          simp [hm, this]

theorem reSubA_nil (pat : List Tok) (ins : List Char) : reSubA pat ins [] = [] := rfl

theorem reSubA_match {pat : List Tok} {c : Char} {rest m r : List Char}
    (h : matchToks pat (c :: rest) = some (m, r)) (hm : m ≠ []) (ins : List Char) :
    reSubA pat ins (c :: rest) = m ++ ins ++ reSubA pat ins r := by
  have hmr := matchToks_eq pat (c :: rest) m r h
  have hlen : m.length + r.length = rest.length + 1 := by
    have := congrArg List.length hmr; simpa using this
  have hmpos : 0 < m.length := List.length_pos.mpr hm
  show reSubGo pat ins (c :: rest).length (c :: rest) = _
  simp only [List.length_cons, reSubGo, h, hm, if_false, ite_false]
  have : reSubGo pat ins rest.length r = reSubGo pat ins r.length r :=
    reSubGo_fuel pat ins rest.length r rest.length r.length (by omega) (by omega) (by omega)
  rw [this]
  rfl

theorem reSubA_nomatch {pat : List Tok} {c : Char} {rest : List Char}
    (h : matchToks pat (c :: rest) = none) (ins : List Char) :
    reSubA pat ins (c :: rest) = c :: reSubA pat ins rest := by
  show reSubGo pat ins (c :: rest).length (c :: rest) = _
  simp only [List.length_cons, reSubGo, h]
  rfl

/-! ### The script's concrete patterns and inserted entries

The anchors are the script's regex patterns with the escaping removed
(`\*` ↦ `*`, `\+` ↦ `+`, `\.` ↦ `.`, `\{` ↦ `{`, `\}` ↦ `}`, `\(` ↦ `(`);
apart from `\s+` in `extensions_group_pattern` every pattern character is
literal. -/

/-- `build_file_pattern`: the known `Color+MindSync.swift` PBXBuildFile line. -/
def anchor1 : List Char :=
  ("BA06811D2EFB013D0035F5B8 /* Color+MindSync.swift in Sources */ = \x7bisa = PBXBuildFile; fileRef = BA06810D2EFB013D0035F5B8 /* Color+MindSync.swift */; \x7d;").data

/-- `file_ref_pattern`: the known `View+Gestures.swift` PBXFileReference line. -/
def anchor2 : List Char :=
  ("BA06810E2EFB013D0035F5B8 /* View+Gestures.swift */ = \x7bisa = PBXFileReference; lastKnownFileType = sourcecode.swift; path = \"View+Gestures.swift\"; sourceTree = \"<group>\"; \x7d;").data

/-- First literal piece of `extensions_group_pattern`. -/
def ext1 : List Char := ("/* Extensions */ = \x7b").data

/-- Second literal piece of `extensions_group_pattern`. -/
def ext2 : List Char := ("isa = PBXGroup;").data

/-- Third literal piece of `extensions_group_pattern`. -/
def ext3 : List Char := ("children = (").data

/-- Last literal piece of `extensions_group_pattern`: the `Color+MindSync.swift`
child entry that opens the Extensions group's children list. -/
def ext4 : List Char := ("BA06810D2EFB013D0035F5B8 /* Color+MindSync.swift */,").data

/-- `sources_pattern`: the `View+Gestures.swift` sources-build-phase member. -/
def anchor4 : List Char :=
  ("BA0681292EFB013D0035F5B8 /* View+Gestures.swift in Sources */,").data

def pat1 : List Tok := [Tok.lit anchor1]
def pat2 : List Tok := [Tok.lit anchor2]
def pat3 : List Tok :=
  [Tok.lit ext1, Tok.ws, Tok.lit ext2, Tok.ws, Tok.lit ext3, Tok.ws, Tok.lit ext4]
def pat4 : List Tok := [Tok.lit anchor4]

/-- `build_file_entry` of the script (an f-string over the generated ids and
the filename). -/
def build_file_entry (bid fid fname : List Char) : List Char :=
  ("\t\t").data ++ bid ++ (" /* ").data ++ fname ++
    (" in Sources */ = \x7bisa = PBXBuildFile; fileRef = ").data ++ fid ++
    (" /* ").data ++ fname ++ (" */; \x7d;").data

/-- `file_ref_entry` of the script. -/
def file_ref_entry (fid fname : List Char) : List Char :=
  ("\t\t").data ++ fid ++ (" /* ").data ++ fname ++
    (" */ = \x7bisa = PBXFileReference; lastKnownFileType = sourcecode.swift; path = \"").data ++
    fname ++ ("\"; sourceTree = \"<group>\"; \x7d;").data

/-- `extensions_group_entry` of the script. -/
def extensions_group_entry (fid fname : List Char) : List Char :=
  ("\n\t\t\t\t").data ++ fid ++ (" /* ").data ++ fname ++ (" */,").data

/-- `sources_entry` of the script. -/
def sources_entry (bid fname : List Char) : List Char :=
  ("\n\t\t\t\t").data ++ bid ++ (" /* ").data ++ fname ++ (" in Sources */,").data

/-- Inserted text of substitution 1 (`r'\1\n' + build_file_entry`). -/
def ins1 (bid fid fname : List Char) : List Char := '\n' :: build_file_entry bid fid fname

/-- Inserted text of substitution 2 (`r'\1\n' + file_ref_entry`). -/
def ins2 (fid fname : List Char) : List Char := '\n' :: file_ref_entry fid fname

/-- The text transformation of `add_file_to_project`: the four `re.sub`
substitutions applied in program order to the descriptor text. -/
def add_file_to_project_text (content bid fid fname : List Char) : List Char :=
  reSubA pat4 (sources_entry bid fname)
    (reSubA pat3 (extensions_group_entry fid fname)
      (reSubA pat2 (ins2 fid fname)
        (reSubA pat1 (ins1 bid fid fname) content)))

/-- The filename hard-coded in the script's invocation. -/
def targetFilename : List Char := ("String+AudioFile.swift").data

/-- The alphabet of `generate_xcode_id` (`'0123456789ABCDEF'`). -/
def hexAlphabet : List Char := ("0123456789ABCDEF").data

theorem hexAlphabet_length : hexAlphabet.length = 16 := by decide

/-- `generate_xcode_id`: `''.join(random.choices('0123456789ABCDEF', k=24))`.
The 24 random draws are modelled by the function `pick`. -/
def generate_xcode_id (pick : Fin 24 → Fin 16) : List Char :=
  List.ofFn fun i : Fin 24 => hexAlphabet.get ((pick i).cast hexAlphabet_length.symm)

/-! ### The `__main__` flow over an explicit file-system state -/

/-- `Path.with_suffix`: drop the final suffix (the part of the name from its
last dot on) and append the new one.  The paths this is applied to end in
`project.pbxproj`, whose name always contains a dot. -/
def with_suffix (p suf : String) : String :=
  if ('.' ∈ p.data) then
    ⟨(((p.data.reverse.dropWhile (fun c => c ≠ '.')).drop 1).reverse) ++ suf.data⟩
  else ⟨p.data ++ suf.data⟩

/-- `project_root / "MindSync" / "MindSync.xcodeproj" / "project.pbxproj"`. -/
def pbxprojPath (root : String) : String :=
  root ++ "/MindSync/MindSync.xcodeproj/project.pbxproj"

/-- The backup path `pbxproj.with_suffix('.pbxproj.backup')`. -/
def backupPath (root : String) : String :=
  with_suffix (pbxprojPath root) ".pbxproj.backup"

/-- A file system: path ↦ content (as characters), `none` when absent. -/
def FS : Type := String → Option (List Char)

/-- `path.write_text(v)`. -/
def fsWrite (fs : FS) (p : String) (v : List Char) : FS :=
  fun q => if q = p then some v else fs q

/-- Result of one run: the file-system states after each write (the first
element is the initial state), the final state, the exit code, and the
lines written to standard error. -/
structure RunOutcome where
  trace : List FS
  finalFS : FS
  exitCode : Nat
  stderr : List String

/-- The `__main__` block.  `fault = none` models a run in which no exception
is raised; `fault = some broken` models an exception raised inside the
`try` block (during the transformation or the write-back), with `broken`
the descriptor content on disk at that moment (`broken = orig` when the
exception precedes the write, a partially written text otherwise). -/
def runMain (fs : FS) (root : String) (pick1 pick2 : Fin 24 → Fin 16)
    (fault : Option (List Char)) : RunOutcome :=
  let pbx := pbxprojPath root
  match fs pbx with
  | none =>
    { trace := [fs], finalFS := fs, exitCode := 1,
      stderr := ["Error: Could not find " ++ pbx] }
  | some orig =>
    let bak := backupPath root
    let fs1 := fsWrite fs bak orig
    let bid := generate_xcode_id pick1
    let fid := generate_xcode_id pick2
    match fault with
    | none =>
      let fs2 := fsWrite fs1 pbx (add_file_to_project_text orig bid fid targetFilename)
      { trace := [fs, fs1, fs2], finalFS := fs2, exitCode := 0, stderr := [] }
    | some broken =>
      let fs2 := fsWrite fs1 pbx broken
      let fs3 :=
        match fs2 bak with
        | some b => fsWrite fs2 pbx b
        | none => fs2
      { trace := [fs, fs1, fs2, fs3], finalFS := fs3, exitCode := 1,
        stderr := ["Error", "Restoring from backup..."] }

/-! ### Properties of the matcher -/

/-- `m` is a possible match of `pat` (at the head of some text). -/
def Matches (pat : List Tok) (m : List Char) : Prop :=
  ∃ s r, matchToks pat s = some (m, r)

/-- The only match of a one-literal pattern is the literal itself. -/
theorem matchToks_lit {L s m r : List Char}
    (h : matchToks [Tok.lit L] s = some (m, r)) : m = L ∧ L ++ r = s := by
  simp only [matchToks] at h
  cases hl : matchLit L s with
  | none => rw [hl] at h; cases h
  | some r1 =>
    rw [hl] at h
    simp [matchToks] at h
    exact ⟨h.1.symm, by rw [← h.2]; exact matchLit_eq L s r1 hl⟩

theorem matchToks_lit_self (L z : List Char) :
    matchToks [Tok.lit L] (L ++ z) = some (L, z) := by
  simp [matchToks, matchLit_self]

/-- A match of a pattern starting with a nonempty literal is nonempty. -/
theorem matchToks_ne_nil {l : List Char} {ts : List Tok} {s m r : List Char}
    (hl : l ≠ []) (h : matchToks (Tok.lit l :: ts) s = some (m, r)) : m ≠ [] := by
  simp only [matchToks] at h
  cases h1 : matchLit l s with
  | none => rw [h1] at h; cases h
  | some r1 =>
    rw [h1] at h
    dsimp only at h
    cases h2 : matchToks ts r1 with
    | none => rw [h2] at h; cases h
    | some p =>
      obtain ⟨m2, r2⟩ := p
      rw [h2] at h
      simp at h
      rw [← h.1]
      simp [hl]

/-- The structure of a match: literal tokens contribute themselves, `\s+`
tokens contribute a nonempty all-whitespace run. -/
inductive Shaped : List Tok → List Char → Prop
  | nil : Shaped [] []
  | lit (l : List Char) {ts : List Tok} {m : List Char} :
      Shaped ts m → Shaped (Tok.lit l :: ts) (l ++ m)
  | ws {w : List Char} {ts : List Tok} {m : List Char} :
      w ≠ [] → (∀ c ∈ w, isPySpace c = true) → Shaped ts m → Shaped (Tok.ws :: ts) (w ++ m)

theorem matchToks_shaped :
    ∀ (ts : List Tok) (s m r : List Char), matchToks ts s = some (m, r) → Shaped ts m := by
  intro ts
  induction ts with
  | nil =>
    intro s m r h
    simp [matchToks] at h
    rw [h.1]
    exact Shaped.nil
  | cons t ts ih =>
    intro s m r h
    cases t with
    | lit l =>
      simp only [matchToks] at h
      cases h1 : matchLit l s with
      | none => rw [h1] at h; cases h
      | some r1 =>
        rw [h1] at h
        dsimp only at h
        cases h2 : matchToks ts r1 with
        | none => rw [h2] at h; cases h
        | some p =>
          obtain ⟨m2, r2⟩ := p
          rw [h2] at h
          simp at h
          rw [← h.1]
          exact Shaped.lit l (ih r1 m2 r2 h2)
    | ws =>
      simp only [matchToks] at h
      by_cases hrun : (s.takeWhile isPySpace).isEmpty
      · simp [hrun] at h
      · simp only [hrun, Bool.false_eq_true, not_false_iff, ite_false] at h
        cases h2 : matchToks ts (s.dropWhile isPySpace) with
        | none => rw [h2] at h; cases h
        | some p =>
          obtain ⟨m2, r2⟩ := p
          rw [h2] at h
          simp at h
          rw [← h.1]
          refine Shaped.ws ?_ ?_ (ih _ m2 r2 h2)
          · simpa [List.isEmpty_iff] using hrun
          · intro c hc
            exact List.mem_takeWhile_imp hc

/-- A pattern that ends with a literal only matches texts ending (at the match
boundary) with that literal. -/
theorem shaped_last_lit {L : List Char} :
    ∀ {ts : List Tok} {m : List Char}, Shaped (ts ++ [Tok.lit L]) m → L <:+ m := by
  intro ts
  induction ts with
  | nil =>
    intro m h
    cases h with
    | lit l h' =>
      cases h' with
      | nil => simp
  | cons t ts ih =>
    intro m h
    cases h with
    | lit l h' => exact (ih h').trans (List.suffix_append l _)
    | ws hw hall h' => exact (ih h').trans (List.suffix_append _ _)

/-- A shaped match of a pattern starting with a literal starts with it. -/
theorem shaped_first_lit {l : List Char} {ts : List Tok} {m : List Char}
    (h : Shaped (Tok.lit l :: ts) m) : l <+: m := by
  cases h with
  | lit _ h' => exact ⟨_, rfl⟩

/-- Every character of a match comes from a literal piece of the pattern or is
whitespace. -/
theorem shaped_chars :
    ∀ {ts : List Tok} {m : List Char}, Shaped ts m →
      ∀ c ∈ m, (∃ l, Tok.lit l ∈ ts ∧ c ∈ l) ∨ isPySpace c = true := by
  intro ts m h
  induction h with
  | nil => intro c hc; cases hc
  | lit l h' ih =>
    intro c hc
    rcases List.mem_append.mp hc with hc | hc
    · exact Or.inl ⟨l, List.mem_cons_self .., hc⟩
    · rcases ih c hc with ⟨l', hl', hcl⟩ | hws
      · exact Or.inl ⟨l', List.mem_cons_of_mem _ hl', hcl⟩
      · exact Or.inr hws
  | ws hw hall h' ih =>
    intro c hc
    rcases List.mem_append.mp hc with hc | hc
    · exact Or.inr (hall c hc)
    · rcases ih c hc with ⟨l', hl', hcl⟩ | hws
      · exact Or.inl ⟨l', List.mem_cons_of_mem _ hl', hcl⟩
      · exact Or.inr hws

/-- Well-formedness of a pattern: every `\s+` token is immediately followed by
a literal starting with a non-whitespace character (in particular no pattern
ends with `\s+`).  All four patterns of the script are well-formed. -/
def wellFormedB : List Tok → Bool
  | [] => true
  | Tok.lit _ :: ts => wellFormedB ts
  | [Tok.ws] => false
  | Tok.ws :: Tok.ws :: _ => false
  | Tok.ws :: Tok.lit [] :: _ => false
  | Tok.ws :: Tok.lit (c :: cs) :: ts => !isPySpace c && wellFormedB (Tok.lit (c :: cs) :: ts)

theorem takeWhile_append_run {p : Char → Bool} :
    ∀ {w : List Char}, (∀ c ∈ w, p c = true) → ∀ {d : Char}, p d = false → ∀ (z : List Char),
      (w ++ d :: z).takeWhile p = w ∧ (w ++ d :: z).dropWhile p = d :: z := by
  intro w
  induction w with
  | nil =>
    intro _ d hd z
    simp [List.takeWhile, List.dropWhile, hd]
  | cons a w ih =>
    intro hall d hd z
    have ha : p a = true := hall a (List.mem_cons_self ..)
    have ih' := ih (fun c hc => hall c (List.mem_cons_of_mem _ hc)) hd z
    simp [List.takeWhile, List.dropWhile, ha, ih'.1, ih'.2]

theorem matchToks_ws_cons (ts : List Tok) (s : List Char) :
    matchToks (Tok.ws :: ts) s =
      if (s.takeWhile isPySpace).isEmpty then none
      else
        match matchToks ts (s.dropWhile isPySpace) with
        | none => none
        | some (m, r2) => some (s.takeWhile isPySpace ++ m, r2) := rfl

/-- A shaped match of a well-formed pattern re-matches in any right context,
producing exactly itself.  (Maximal munch cannot overrun: each whitespace run
is delimited by the non-whitespace head of the following literal.) -/
theorem shaped_parse :
    ∀ {ts : List Tok} {m : List Char}, wellFormedB ts = true → Shaped ts m →
      ∀ y, matchToks ts (m ++ y) = some (m, y) := by
  intro ts m hwf h
  induction h with
  | nil => intro y; simp [matchToks]
  | lit l h' ih =>
    intro y
    rename_i ts' m'
    have hwf' : wellFormedB ts' = true := by
      cases ts' with
      | nil => rfl
      | cons t ts'' => simpa [wellFormedB] using hwf
    simp only [matchToks, List.append_assoc, matchLit_self, ih hwf' y]
  | ws hw hall h' ih =>
    intro y
    rename_i w ts' m'
    cases h' with
    | nil => exact absurd hwf (by decide)
    | ws hw2 hall2 h2 => exact absurd hwf (by rw [show wellFormedB (Tok.ws :: Tok.ws :: _) = false from rfl]; simp)
    | lit l h2 =>
      rename_i ts2 m2
      cases l with
      | nil => simp [wellFormedB] at hwf
      | cons c cs =>
        simp only [wellFormedB, Bool.and_eq_true, Bool.not_eq_true'] at hwf
        obtain ⟨hc, hwf2⟩ := hwf
        have hih := ih (by simpa [wellFormedB] using hwf2) y
        have hz : ((c :: cs) ++ m2) ++ y = c :: (cs ++ (m2 ++ y)) := by simp
        rw [hz] at hih
        have e : (w ++ ((c :: cs) ++ m2)) ++ y = w ++ (c :: (cs ++ (m2 ++ y))) := by simp
        rw [e, matchToks_ws_cons]
        have hrun := takeWhile_append_run hall hc (cs ++ (m2 ++ y))
        rw [hrun.1, hrun.2, hih]
        simp [hw]

theorem pat3_wellFormed : wellFormedB pat3 = true := by decide

/-- Every nonempty match of `pat3` ends with its final literal `ext4`. -/
theorem matches_pat3_last {m : List Char} (h : Matches pat3 m) : ext4 <:+ m := by
  obtain ⟨s, r, hm⟩ := h
  have : Shaped pat3 m := matchToks_shaped pat3 s m r hm
  have e : pat3 = [Tok.lit ext1, Tok.ws, Tok.lit ext2, Tok.ws, Tok.lit ext3,
      Tok.ws] ++ [Tok.lit ext4] := rfl
  exact shaped_last_lit (e ▸ this)

/-! ### Behaviour of the substitution -/

/-- The empty-match unfolding of `reSubA` (unreachable for the script's
patterns, needed for completeness of the case analyses below). -/
theorem reSubA_empty {pat : List Tok} {c : Char} {rest r : List Char}
    (h : matchToks pat (c :: rest) = some ([], r)) (ins : List Char) :
    reSubA pat ins (c :: rest) = ins ++ c :: reSubA pat ins rest := by
  show reSubGo pat ins (c :: rest).length (c :: rest) = _
  simp only [List.length_cons, reSubGo, h, if_pos]
  rw [reSubGo_fuel pat ins rest.length rest rest.length rest.length
    (le_refl _) (le_refl _) (le_refl _)]
  rfl

/-- The original text is a sublist (subsequence) of the substituted text: the
substitution only inserts, it never deletes or alters a character. -/
theorem reSubA_sublist (pat : List Tok) (ins : List Char) :
    ∀ (n : Nat) (s : List Char), s.length ≤ n → List.Sublist s (reSubA pat ins s) := by
  intro n
  induction n with
  | zero =>
    intro s hn
    have : s = [] := List.length_eq_zero.mp (Nat.le_zero.mp hn)
    subst this
    simp [reSubA_nil]
  | succ n ih =>
    intro s hn
    cases s with
    | nil => simp [reSubA_nil]
    | cons c rest =>
      simp only [List.length_cons] at hn
      cases hmt : matchToks pat (c :: rest) with
      | none =>
        rw [reSubA_nomatch hmt]
        exact (ih rest (by omega)).cons₂ c
      | some p =>
        obtain ⟨m, r⟩ := p
        have hmr := matchToks_eq pat (c :: rest) m r hmt
        by_cases hm : m = []
        · subst hm
          rw [reSubA_empty hmt ins]
          exact ((ih rest (by omega)).cons₂ c).trans (List.sublist_append_right ins _)
        · rw [reSubA_match hmt hm ins]
          have hlen : m.length + r.length = rest.length + 1 := by
            have := congrArg List.length hmr; simpa using this
          have hmpos : 0 < m.length := List.length_pos.mpr hm
          have hr : List.Sublist r (reSubA pat ins r) := ih r (by omega)
          have h1 : List.Sublist r (ins ++ reSubA pat ins r) :=
            hr.trans (List.sublist_append_right ins _)
          have h2 : List.Sublist (m ++ r) (m ++ (ins ++ reSubA pat ins r)) :=
            h1.append_left m
          rw [← hmr]
          simpa [List.append_assoc] using h2

/-- Scanning past a region with no match leaves it unchanged. -/
theorem reSubA_skip (pat : List Tok) (ins : List Char) :
    ∀ (x t : List Char), (∀ v ∈ x.tails, v ≠ [] → matchToks pat (v ++ t) = none) →
      reSubA pat ins (x ++ t) = x ++ reSubA pat ins t := by
  intro x
  induction x with
  | nil => intro t _; simp
  | cons c x' ih =>
    intro t hx
    have hself : matchToks pat ((c :: x') ++ t) = none := by
      have : (c :: x') ∈ (c :: x').tails := (List.mem_tails ..).mpr (List.suffix_refl _)
      exact hx (c :: x') this (by simp)
    rw [show (c :: x') ++ t = c :: (x' ++ t) from rfl] at hself ⊢
    rw [reSubA_nomatch hself]
    rw [ih t (fun v hv hne => hx v ((List.mem_tails ..).mpr
      (((List.mem_tails ..).mp hv).trans (List.suffix_cons c x'))) hne)]
    rfl

/-- A text with no match anywhere is left unchanged. -/
theorem reSubA_id (pat : List Tok) (ins : List Char) (s : List Char)
    (h : ∀ v ∈ s.tails, v ≠ [] → matchToks pat v = none) :
    reSubA pat ins s = s := by
  have := reSubA_skip pat ins s [] (by simpa using h)
  simpa [reSubA_nil] using this

/-- `pat` never produces an empty match. -/
def NeverEmpty (pat : List Tok) : Prop :=
  ∀ s m r, matchToks pat s = some (m, r) → m ≠ []

theorem neverEmpty_of_lit_head {l : List Char} (hl : l ≠ []) (ts : List Tok) :
    NeverEmpty (Tok.lit l :: ts) :=
  fun _ _ _ h => matchToks_ne_nil hl h

/-- If the text contains a match somewhere, the substituted text contains a
match immediately followed by the inserted text. -/
theorem reSubA_exists (pat : List Tok) (ins : List Char) (hne : NeverEmpty pat) :
    ∀ (x y m r : List Char), matchToks pat y = some (m, r) →
      ∃ m', Matches pat m' ∧ m' ≠ [] ∧ (m' ++ ins) <:+: reSubA pat ins (x ++ y) := by
  intro x
  induction x with
  | nil =>
    intro y m r hy
    have hm : m ≠ [] := hne y m r hy
    have hmr := matchToks_eq pat y m r hy
    have hynil : y ≠ [] := by
      intro h
      rw [h] at hmr
      exact hm (List.append_eq_nil.mp hmr).1
    obtain ⟨c, rest, rfl⟩ := List.exists_cons_of_ne_nil hynil
    rw [List.nil_append, reSubA_match hy hm ins]
    exact ⟨m, ⟨_, _, hy⟩, hm, [], reSubA pat ins r, by simp⟩
  | cons c x' ih =>
    intro y m r hy
    cases hmt : matchToks pat ((c :: x') ++ y) with
    | some p =>
      obtain ⟨m₀, r₀⟩ := p
      have hm₀ : m₀ ≠ [] := hne _ m₀ r₀ hmt
      rw [show (c :: x') ++ y = c :: (x' ++ y) from rfl] at hmt
      rw [show (c :: x') ++ y = c :: (x' ++ y) from rfl, reSubA_match hmt hm₀ ins]
      exact ⟨m₀, ⟨_, _, hmt⟩, hm₀, [], reSubA pat ins r₀, by simp⟩
    | none =>
      rw [show (c :: x') ++ y = c :: (x' ++ y) from rfl] at hmt
      rw [show (c :: x') ++ y = c :: (x' ++ y) from rfl, reSubA_nomatch hmt ins]
      obtain ⟨m', hM, hm', u, v, huv⟩ := ih y m r hy
      exact ⟨m', hM, hm', c :: u, v, by rw [← huv]; simp⟩

/-- Safety condition for preserving an occurrence of `t` across a substitution
by `pat`: no nonempty proper prefix of `t` is suffix-aligned with a possible
match.  (An insertion lands strictly inside an occurrence of `t` exactly when
a match ends there, which forces such an alignment.) -/
def Cond (pat : List Tok) (t : List Char) : Prop :=
  ∀ m, Matches pat m → ∀ a, a <+: t → a ≠ [] → a.length < t.length →
    ¬ a <:+ m ∧ ¬ m <:+ a

theorem prefix_of_prefix_le {a b t : List Char} (ha : a <+: t) (hb : b <+: t)
    (h : a.length ≤ b.length) : a <+: b :=
  List.prefix_of_prefix_length_le ha hb h

/-- If a suffix of `t` sits at the head of the text, it comes out unscathed at
the head of the substituted text. -/
theorem reSubA_prefix_stable (pat : List Tok) (ins : List Char) (t : List Char)
    (hC : Cond pat t) (hne : NeverEmpty pat) :
    ∀ (b : List Char), (∃ a, t = a ++ b ∧ b ≠ []) → ∀ y, b <+: reSubA pat ins (b ++ y) := by
  intro b
  induction b with
  | nil => rintro ⟨a, _, hb⟩; exact absurd rfl hb
  | cons c b' ih =>
    rintro ⟨a, hab, _⟩ y
    rw [show (c :: b') ++ y = c :: (b' ++ y) from rfl]
    cases hmt : matchToks pat (c :: (b' ++ y)) with
    | none =>
      rw [reSubA_nomatch hmt ins]
      cases hb' : b' with
      | nil => simp
      | cons d b'' =>
        rw [← hb']
        have := ih ⟨a ++ [c], by rw [hab]; simp, by rw [hb']; simp⟩ y
        exact (List.prefix_cons_inj c).mpr this
    | some p =>
      obtain ⟨m, r⟩ := p
      have hm : m ≠ [] := hne _ m r hmt
      have hmr := matchToks_eq pat _ m r hmt
      rw [reSubA_match hmt hm ins]
      by_cases hlen : (c :: b').length ≤ m.length
      · -- the match swallows all of `b`; `b` survives as a prefix of the match
        have hp1 : (c :: b') <+: c :: (b' ++ y) := ⟨y, rfl⟩
        have hp2 : m <+: c :: (b' ++ y) := ⟨r, hmr⟩
        have hbm : (c :: b') <+: m := prefix_of_prefix_le hp1 hp2 hlen
        calc (c :: b') <+: m := hbm
          _ <+: m ++ (ins ++ reSubA pat ins r) := ⟨ins ++ reSubA pat ins r, rfl⟩
          _ = m ++ ins ++ reSubA pat ins r := by simp
      · -- impossible: the match would end strictly inside the occurrence of `t`
        exfalso
        have hp1 : m <+: c :: (b' ++ y) := ⟨r, hmr⟩
        have hp2 : (c :: b') <+: c :: (b' ++ y) := ⟨y, rfl⟩
        have hmb : m <+: (c :: b') := prefix_of_prefix_le hp1 hp2 (by omega)
        obtain ⟨b₂, hb₂⟩ := hmb
        have hb₂ne : b₂ ≠ [] := by
          intro h
          rw [h, List.append_nil] at hb₂
          rw [hb₂] at hlen
          exact hlen (le_refl _)
        have ham : (a ++ m) <+: t := by
          rw [hab, ← hb₂]
          exact ⟨b₂, by simp⟩
        have hlt : (a ++ m).length < t.length := by
          have := congrArg List.length hab
          have := congrArg List.length hb₂
          simp [List.length_append] at *
          have : 0 < b₂.length := List.length_pos.mpr hb₂ne
          omega
        have := (hC m ⟨_, _, hmt⟩ (a ++ m) ham
          (by simp [hm]) hlt).2
        exact this (List.suffix_append a m)

/-- Main preservation lemma: an occurrence of `t` survives a substitution
whose matches cannot end strictly inside `t`. -/
theorem reSubA_infix_preserved (pat : List Tok) (ins : List Char) (t : List Char)
    (hC : Cond pat t) (hne : NeverEmpty pat) (ht : t ≠ []) :
    ∀ (n : Nat) (x : List Char), x.length ≤ n → ∀ y,
      t <:+: reSubA pat ins (x ++ (t ++ y)) := by
  intro n
  induction n with
  | zero =>
    intro x hn y
    have : x = [] := List.length_eq_zero.mp (Nat.le_zero.mp hn)
    subst this
    rw [List.nil_append]
    have := reSubA_prefix_stable pat ins t hC hne t ⟨[], by simp, ht⟩ y
    exact this.isInfix
  | succ n ih =>
    intro x hn y
    cases hx : x with
    | nil =>
      rw [List.nil_append]
      have := reSubA_prefix_stable pat ins t hC hne t ⟨[], by simp, ht⟩ y
      exact this.isInfix
    | cons c x' =>
      subst hx
      simp only [List.length_cons] at hn
      rw [show (c :: x') ++ (t ++ y) = c :: (x' ++ (t ++ y)) from rfl]
      cases hmt : matchToks pat (c :: (x' ++ (t ++ y))) with
      | none =>
        rw [reSubA_nomatch hmt ins]
        obtain ⟨u, v, huv⟩ := ih x' (by omega) y
        exact ⟨c :: u, v, by rw [← huv]; simp⟩
      | some p =>
        obtain ⟨m, r⟩ := p
        have hm : m ≠ [] := hne _ m r hmt
        have hmr := matchToks_eq pat _ m r hmt
        rw [reSubA_match hmt hm ins]
        have hpm : m <+: c :: (x' ++ (t ++ y)) := ⟨r, hmr⟩
        have hpx : (c :: x') <+: c :: (x' ++ (t ++ y)) := ⟨t ++ y, rfl⟩
        have hpxt : ((c :: x') ++ t) <+: c :: (x' ++ (t ++ y)) := ⟨y, by simp⟩
        by_cases h1 : m.length ≤ (c :: x').length
        · -- match inside the left context: recurse on the rest
          have hmx : m <+: (c :: x') := prefix_of_prefix_le hpm hpx h1
          obtain ⟨x₂, hx₂⟩ := hmx
          have hr : r = x₂ ++ (t ++ y) := by
            have : m ++ r = (m ++ x₂) ++ (t ++ y) := by rw [hx₂]; exact hmr
            simpa [List.append_assoc] using this
          have hx₂len : x₂.length ≤ n := by
            have := congrArg List.length hx₂
            have hmpos : 0 < m.length := List.length_pos.mpr hm
            simp [List.length_append] at this
            omega
          obtain ⟨u, v, huv⟩ := hr ▸ ih x₂ hx₂len y
          exact ⟨m ++ ins ++ u, v, by rw [← huv]; simp⟩
        · by_cases h2 : (c :: x').length + t.length ≤ m.length
          · -- the match swallows the whole occurrence of `t`
            have hxt : ((c :: x') ++ t) <+: m :=
              prefix_of_prefix_le hpxt hpm
                (by simp only [List.length_append]; omega)
            obtain ⟨z, hz⟩ := hxt
            have : t <:+: m := ⟨c :: x', z, by simpa [List.append_assoc] using hz⟩
            obtain ⟨u, v, huv⟩ := this
            exact ⟨u, v ++ ins ++ reSubA pat ins r, by rw [← huv]; simp⟩
          · -- impossible: the match ends strictly inside the occurrence of `t`
            exfalso
            have hxm : (c :: x') <+: m := prefix_of_prefix_le hpx hpm (by omega)
            obtain ⟨aa, haa⟩ := hxm
            have hlaa := congrArg List.length haa
            simp only [List.length_append, List.length_cons] at hlaa h1 h2
            have haane : aa ≠ [] := by
              intro h
              rw [h] at hlaa
              simp at hlaa
              omega
            have haat : aa <+: t := by
              have hm2 : m <+: (c :: x') ++ (t ++ y) := ⟨r, hmr⟩
              rw [← haa] at hm2
              have h3 : aa <+: t ++ y :=
                (List.prefix_append_right_inj (c :: x')).mp hm2
              refine prefix_of_prefix_le h3 ⟨y, rfl⟩ ?_
              omega
            have hlt : aa.length < t.length := by omega
            have := (hC m ⟨_, _, hmt⟩ aa haat haane hlt).1
            exact this (haa ▸ List.suffix_append (c :: x') aa)

/-! ### Discharging the safety condition -/

theorem matches_lit_eq {L m : List Char} (h : Matches [Tok.lit L] m) : m = L := by
  obtain ⟨s, r, hm⟩ := h
  exact (matchToks_lit hm).1

/-- All matches of `pat` end in the character `ch`, and `ch` does not occur in
`t` before its last position: then no match can end strictly inside `t`. -/
theorem cond_of_lastChar (pat : List Tok) (t : List Char) (ch : Char)
    (hmatch : ∀ m, Matches pat m → m.getLast? = some ch)
    (hch : ch ∉ t.dropLast) : Cond pat t := by
  intro m hM a hat hane halen
  have hml : m.getLast? = some ch := hmatch m hM
  have hmne : m ≠ [] := by
    intro h
    rw [h] at hml
    simp at hml
  have hmem : a.getLast? = some ch → False := by
    intro hz
    have hzmem : ch ∈ a := List.mem_of_mem_getLast? (by rw [hz]; rfl)
    have hpre : a <+: t.dropLast := by
      rw [List.dropLast_eq_take]
      have h1 : a = t.take a.length := List.prefix_iff_eq_take.mp hat
      rw [h1]
      exact (List.take_isPrefix_take).mpr (Or.inl (by omega))
    exact hch (hpre.subset hzmem)
  constructor
  · intro hsuf
    obtain ⟨u, hu⟩ := hsuf
    apply hmem
    rw [← hu] at hml
    rwa [List.getLast?_append_of_ne_nil u hane] at hml
  · intro hsuf
    obtain ⟨u, hu⟩ := hsuf
    apply hmem
    rw [← hu, List.getLast?_append_of_ne_nil u hmne]
    exact hml

/-- Decidable check: some nonempty suffix of `L` is prefix-compatible with the
(concrete) prefix `P`. -/
def spClash (L P : List Char) : Bool :=
  L.tails.any (fun a => !a.isEmpty && (a.take P.length).isPrefixOf P)

theorem spClash_sound {L P : List Char} (h : spClash L P = false) {t : List Char}
    (hP : P <+: t) : ∀ a, a ≠ [] → a <:+ L → ¬ a <+: t := by
  intro a hane hsuf hpre
  have h1 : a.take P.length <+: t.take P.length := hpre.take P.length
  have h2 : t.take P.length = P := (List.prefix_iff_eq_take.mp hP).symm
  rw [h2] at h1
  have h3 : (a.take P.length).isPrefixOf P = true := List.isPrefixOf_iff_prefix.mpr h1
  have h4 : a ∈ L.tails := (List.mem_tails a L).mpr hsuf
  have : spClash L P = true := by
    simp only [spClash, List.any_eq_true]
    exact ⟨a, h4, by simp [List.isEmpty_iff, hane, h3]⟩
  rw [this] at h
  cases h

/-- Safety of a literal substitution with respect to a target `t`:
no nonempty suffix of the literal is prefix-compatible with `t` (checked
against the concrete prefix `P` of `t`), and the literal contains a character
that `t` does not. -/
theorem cond_lit {L t P : List Char} {ch : Char} (h1 : spClash L P = false)
    (h2 : P <+: t) (h3 : ch ∈ L) (h4 : ch ∉ t) : Cond [Tok.lit L] t := by
  intro m hM a hat hane halen
  have hm : m = L := matches_lit_eq hM
  subst hm
  constructor
  · intro hsuf
    exact spClash_sound h1 h2 a hane hsuf hat
  · intro hsuf
    exact h4 (hat.subset (hsuf.subset h3))

theorem anchor1_ne_nil : anchor1 ≠ [] := by decide
theorem anchor2_ne_nil : anchor2 ≠ [] := by decide
theorem ext1_ne_nil : ext1 ≠ [] := by decide
theorem anchor4_ne_nil : anchor4 ≠ [] := by decide

theorem neverEmpty_pat1 : NeverEmpty pat1 := neverEmpty_of_lit_head anchor1_ne_nil _
theorem neverEmpty_pat2 : NeverEmpty pat2 := neverEmpty_of_lit_head anchor2_ne_nil _
theorem neverEmpty_pat3 : NeverEmpty pat3 := neverEmpty_of_lit_head ext1_ne_nil _
theorem neverEmpty_pat4 : NeverEmpty pat4 := neverEmpty_of_lit_head anchor4_ne_nil _

/-- Every match of `pat3` ends with a comma (the last character of `ext4`). -/
theorem matches_pat3_lastChar (m : List Char) (h : Matches pat3 m) :
    m.getLast? = some ',' := by
  have hsuf : ext4 <:+ m := matches_pat3_last h
  obtain ⟨u, hu⟩ := hsuf
  rw [← hu, List.getLast?_append_of_ne_nil u (by decide)]
  decide

theorem matches_pat4_lastChar (m : List Char) (h : Matches pat4 m) :
    m.getLast? = some ',' := by
  rw [matches_lit_eq h]
  decide

/-! ### No-match detection -/

/-- Decidable check: `pat` matches at no position of `s`. -/
def noMatchB (pat : List Tok) (s : List Char) : Bool :=
  s.tails.all (fun y => (matchToks pat y).isNone)

theorem noMatchB_sound {pat : List Tok} {s : List Char} (h : noMatchB pat s = true) :
    ∀ v ∈ s.tails, v ≠ [] → matchToks pat v = none := by
  intro v hv _
  have := List.all_eq_true.mp h v hv
  exact Option.isNone_iff_eq_none.mp this

/-- A literal absent from the text (as a substring) matches at no position. -/
theorem not_infix_noMatch {L s : List Char} (h : ¬ L <:+: s) :
    ∀ v ∈ s.tails, v ≠ [] → matchToks [Tok.lit L] v = none := by
  intro v hv _
  cases hmt : matchToks [Tok.lit L] v with
  | none => rfl
  | some p =>
    obtain ⟨m, r⟩ := p
    obtain ⟨hm, hLr⟩ := matchToks_lit hmt
    exfalso
    apply h
    obtain ⟨u, hu⟩ := (List.mem_tails v s).mp hv
    exact ⟨u, r, by rw [← hu, ← hLr]; simp⟩

/-- An occurrence of the literal `L` gives a match decomposition. -/
theorem infix_matchToks {L s : List Char} (h : L <:+: s) :
    ∃ x y r, s = x ++ y ∧ matchToks [Tok.lit L] y = some (L, r) := by
  obtain ⟨u, v, huv⟩ := h
  exact ⟨u, L ++ v, v, by rw [← huv]; simp, matchToks_lit_self L v⟩

/-! ### Character inventories of the inserted entries -/

/-- All characters of `l` are hexadecimal digits (as the generated ids are). -/
def hexOnly (l : List Char) : Prop := ∀ c ∈ l, c ∈ hexAlphabet

theorem mem_build_file_entry {ch : Char} {bid fid fname : List Char}
    (h : ch ∈ build_file_entry bid fid fname) :
    ch ∈ bid ∨ ch ∈ fid ∨ ch ∈ fname ∨ ch ∈ build_file_entry [] [] [] := by
  simp only [build_file_entry, List.mem_append, List.not_mem_nil, or_false,
    false_or] at h ⊢
  tauto

theorem mem_file_ref_entry {ch : Char} {fid fname : List Char}
    (h : ch ∈ file_ref_entry fid fname) :
    ch ∈ fid ∨ ch ∈ fname ∨ ch ∈ file_ref_entry [] [] := by
  simp only [file_ref_entry, List.mem_append, List.not_mem_nil, or_false,
    false_or] at h ⊢
  tauto

theorem mem_extensions_group_entry {ch : Char} {fid fname : List Char}
    (h : ch ∈ extensions_group_entry fid fname) :
    ch ∈ fid ∨ ch ∈ fname ∨ ch ∈ extensions_group_entry [] [] := by
  simp only [extensions_group_entry, List.mem_append, List.not_mem_nil, or_false,
    false_or] at h ⊢
  tauto

theorem mem_sources_entry {ch : Char} {bid fname : List Char}
    (h : ch ∈ sources_entry bid fname) :
    ch ∈ bid ∨ ch ∈ fname ∨ ch ∈ sources_entry [] [] := by
  simp only [sources_entry, List.mem_append, List.not_mem_nil, or_false,
    false_or] at h ⊢
  tauto

theorem not_mem_build_file_entry {bid fid : List Char} (hb : hexOnly bid)
    (hf : hexOnly fid) {ch : Char} (h1 : ch ∉ hexAlphabet) (h2 : ch ∉ targetFilename)
    (h3 : ch ∉ build_file_entry [] [] []) :
    ch ∉ build_file_entry bid fid targetFilename := by
  intro hc
  rcases mem_build_file_entry hc with hc | hc | hc | hc
  · exact h1 (hb _ hc)
  · exact h1 (hf _ hc)
  · exact h2 hc
  · exact h3 hc

theorem not_mem_file_ref_entry {fid : List Char} (hf : hexOnly fid) {ch : Char}
    (h1 : ch ∉ hexAlphabet) (h2 : ch ∉ targetFilename)
    (h3 : ch ∉ file_ref_entry [] []) : ch ∉ file_ref_entry fid targetFilename := by
  intro hc
  rcases mem_file_ref_entry hc with hc | hc | hc
  · exact h1 (hf _ hc)
  · exact h2 hc
  · exact h3 hc

theorem not_mem_extensions_group_entry {fid : List Char} (hf : hexOnly fid) {ch : Char}
    (h1 : ch ∉ hexAlphabet) (h2 : ch ∉ targetFilename)
    (h3 : ch ∉ extensions_group_entry [] []) :
    ch ∉ extensions_group_entry fid targetFilename := by
  intro hc
  rcases mem_extensions_group_entry hc with hc | hc | hc
  · exact h1 (hf _ hc)
  · exact h2 hc
  · exact h3 hc

theorem not_mem_sources_entry {bid : List Char} (hb : hexOnly bid) {ch : Char}
    (h1 : ch ∉ hexAlphabet) (h2 : ch ∉ targetFilename)
    (h3 : ch ∉ sources_entry [] []) : ch ∉ sources_entry bid targetFilename := by
  intro hc
  rcases mem_sources_entry hc with hc | hc | hc
  · exact h1 (hb _ hc)
  · exact h2 hc
  · exact h3 hc

theorem not_mem_ins1 {bid fid : List Char} (hb : hexOnly bid) (hf : hexOnly fid)
    {ch : Char} (h0 : ch ≠ '\n') (h1 : ch ∉ hexAlphabet) (h2 : ch ∉ targetFilename)
    (h3 : ch ∉ build_file_entry [] [] []) : ch ∉ ins1 bid fid targetFilename := by
  intro hc
  rcases List.mem_cons.mp hc with hc | hc
  · exact h0 hc
  · exact not_mem_build_file_entry hb hf h1 h2 h3 hc

theorem not_mem_ins2 {fid : List Char} (hf : hexOnly fid) {ch : Char}
    (h0 : ch ≠ '\n') (h1 : ch ∉ hexAlphabet) (h2 : ch ∉ targetFilename)
    (h3 : ch ∉ file_ref_entry [] []) : ch ∉ ins2 fid targetFilename := by
  intro hc
  rcases List.mem_cons.mp hc with hc | hc
  · exact h0 hc
  · exact not_mem_file_ref_entry hf h1 h2 h3 hc

theorem not_mem_append {ch : Char} {a b : List Char} (ha : ch ∉ a) (hb : ch ∉ b) :
    ch ∉ a ++ b := by
  intro hc
  rcases List.mem_append.mp hc with hc | hc
  · exact ha hc
  · exact hb hc

/-- No character of a `pat3` match lies outside its four literals and
whitespace. -/
theorem not_mem_shaped_pat3 {m : List Char} (hsh : Shaped pat3 m) {ch : Char}
    (h1 : ch ∉ ext1) (h2 : ch ∉ ext2) (h3 : ch ∉ ext3) (h4 : ch ∉ ext4)
    (h5 : isPySpace ch = false) : ch ∉ m := by
  intro hc
  rcases shaped_chars hsh ch hc with ⟨l, hl, hcl⟩ | hws
  · simp only [pat3, List.mem_cons, List.not_mem_nil, or_false] at hl
    rcases hl with hl | hl | hl | hl | hl | hl | hl
    · injection hl with h'; subst h'; exact h1 hcl
    · cases hl
    · injection hl with h'; subst h'; exact h2 hcl
    · cases hl
    · injection hl with h'; subst h'; exact h3 hcl
    · cases hl
    · injection hl with h'; subst h'; exact h4 hcl
  · rw [hws] at h5; cases h5

/-! ### The concrete safety conditions

The targets below are the strings whose survival across the successive
substitutions the claims require.  Each instance is discharged by
`cond_of_lastChar` (matches of the destroying pattern all end in `,`, which
the target does not contain before its end) or by `cond_lit` (no suffix of
the destroying literal aligns with the target's concrete prefix, and the
destroying literal contains a character foreign to the target). -/

theorem cond_pat2_t1 {bid fid : List Char} (hb : hexOnly bid) (hf : hexOnly fid) :
    Cond pat2 (anchor1 ++ ins1 bid fid targetFilename) :=
  cond_lit (by decide : spClash anchor2 anchor1 = false) ⟨_, rfl⟩
    (by decide : ('V' : Char) ∈ anchor2)
    (not_mem_append (by decide)
      (not_mem_ins1 hb hf (by decide) (by decide) (by decide) (by decide)))

theorem comma_not_mem_t1 {bid fid : List Char} (hb : hexOnly bid) (hf : hexOnly fid) :
    (',' : Char) ∉ anchor1 ++ ins1 bid fid targetFilename :=
  not_mem_append (by decide)
    (not_mem_ins1 hb hf (by decide) (by decide) (by decide) (by decide))

theorem cond_pat3_t1 {bid fid : List Char} (hb : hexOnly bid) (hf : hexOnly fid) :
    Cond pat3 (anchor1 ++ ins1 bid fid targetFilename) :=
  cond_of_lastChar _ _ ',' matches_pat3_lastChar
    (fun hc => comma_not_mem_t1 hb hf (List.mem_of_mem_dropLast hc))

theorem cond_pat4_t1 {bid fid : List Char} (hb : hexOnly bid) (hf : hexOnly fid) :
    Cond pat4 (anchor1 ++ ins1 bid fid targetFilename) :=
  cond_of_lastChar _ _ ',' matches_pat4_lastChar
    (fun hc => comma_not_mem_t1 hb hf (List.mem_of_mem_dropLast hc))

theorem cond_pat1_anchor2 : Cond pat1 anchor2 :=
  cond_lit (by decide : spClash anchor1 anchor2 = false) (List.prefix_refl _)
    (by decide : ('C' : Char) ∈ anchor1) (by decide : ('C' : Char) ∉ anchor2)

theorem comma_not_mem_t2 {fid : List Char} (hf : hexOnly fid) :
    (',' : Char) ∉ anchor2 ++ ins2 fid targetFilename :=
  not_mem_append (by decide)
    (not_mem_ins2 hf (by decide) (by decide) (by decide) (by decide))

theorem cond_pat3_t2 {fid : List Char} (hf : hexOnly fid) :
    Cond pat3 (anchor2 ++ ins2 fid targetFilename) :=
  cond_of_lastChar _ _ ',' matches_pat3_lastChar
    (fun hc => comma_not_mem_t2 hf (List.mem_of_mem_dropLast hc))

theorem cond_pat4_t2 {fid : List Char} (hf : hexOnly fid) :
    Cond pat4 (anchor2 ++ ins2 fid targetFilename) :=
  cond_of_lastChar _ _ ',' matches_pat4_lastChar
    (fun hc => comma_not_mem_t2 hf (List.mem_of_mem_dropLast hc))

theorem cond_pat1_m3 {m : List Char} (hsh : Shaped pat3 m) : Cond pat1 m :=
  cond_lit (by decide : spClash anchor1 ext1 = false) (shaped_first_lit hsh)
    (by decide : ('R' : Char) ∈ anchor1)
    (not_mem_shaped_pat3 hsh (by decide) (by decide) (by decide) (by decide) (by decide))

theorem cond_pat2_m3 {m : List Char} (hsh : Shaped pat3 m) : Cond pat2 m :=
  cond_lit (by decide : spClash anchor2 ext1 = false) (shaped_first_lit hsh)
    (by decide : ('V' : Char) ∈ anchor2)
    (not_mem_shaped_pat3 hsh (by decide) (by decide) (by decide) (by decide) (by decide))

theorem cond_pat4_m3 {m : List Char} (hsh : Shaped pat3 m) : Cond pat4 m :=
  cond_lit (by decide : spClash anchor4 ext1 = false) (shaped_first_lit hsh)
    (by decide : ('V' : Char) ∈ anchor4)
    (not_mem_shaped_pat3 hsh (by decide) (by decide) (by decide) (by decide) (by decide))

theorem cond_pat4_t3 {fid : List Char} (hf : hexOnly fid) :
    Cond pat4 (ext4 ++ extensions_group_entry fid targetFilename) :=
  cond_lit (by decide : spClash anchor4 ext4 = false) ⟨_, rfl⟩
    (by decide : ('V' : Char) ∈ anchor4)
    (not_mem_append (by decide)
      (not_mem_extensions_group_entry hf (by decide) (by decide) (by decide)))

theorem cond_pat1_anchor4 : Cond pat1 anchor4 :=
  cond_lit (by decide : spClash anchor1 anchor4 = false) (List.prefix_refl _)
    (by decide : ('C' : Char) ∈ anchor1) (by decide : ('C' : Char) ∉ anchor4)

theorem cond_pat2_anchor4 : Cond pat2 anchor4 :=
  cond_lit (by decide : spClash anchor2 anchor4 = false) (List.prefix_refl _)
    (by decide : ('P' : Char) ∈ anchor2) (by decide : ('P' : Char) ∉ anchor4)

theorem cond_pat3_anchor4 : Cond pat3 anchor4 :=
  cond_of_lastChar _ _ ',' matches_pat3_lastChar
    (by decide : (',' : Char) ∉ anchor4.dropLast)

theorem cond_pat2_anchor1 : Cond pat2 anchor1 :=
  cond_lit (by decide : spClash anchor2 anchor1 = false) (List.prefix_refl _)
    (by decide : ('V' : Char) ∈ anchor2) (by decide : ('V' : Char) ∉ anchor1)

theorem cond_pat3_anchor1 : Cond pat3 anchor1 :=
  cond_of_lastChar _ _ ',' matches_pat3_lastChar
    (fun hc => absurd (List.mem_of_mem_dropLast hc) (by decide))

theorem cond_pat4_anchor1 : Cond pat4 anchor1 :=
  cond_of_lastChar _ _ ',' matches_pat4_lastChar
    (fun hc => absurd (List.mem_of_mem_dropLast hc) (by decide))

theorem cond_pat3_anchor2 : Cond pat3 anchor2 :=
  cond_of_lastChar _ _ ',' matches_pat3_lastChar
    (fun hc => absurd (List.mem_of_mem_dropLast hc) (by decide))

theorem cond_pat4_anchor2 : Cond pat4 anchor2 :=
  cond_of_lastChar _ _ ',' matches_pat4_lastChar
    (fun hc => absurd (List.mem_of_mem_dropLast hc) (by decide))

/-- Variant of `cond_lit` for targets whose first character does not occur in
the destroying literal at all. -/
theorem cond_lit_firstChar {L t : List Char} {ch ch2 : Char}
    (hhead : t.head? = some ch) (h1 : ch ∉ L) (h3 : ch2 ∈ L) (h4 : ch2 ∉ t) :
    Cond [Tok.lit L] t := by
  intro m hM a hat hane halen
  have hm : m = L := matches_lit_eq hM
  subst hm
  have hahead : a.head? = some ch := by
    obtain ⟨w, hw⟩ := hat
    cases a with
    | nil => exact absurd rfl hane
    | cons x xs =>
      rw [← hw] at hhead
      simpa using hhead
  have hcha : ch ∈ a := List.mem_of_mem_head? (by rw [hahead]; rfl)
  constructor
  · intro hsuf
    exact h1 (hsuf.subset hcha)
  · intro hsuf
    exact h4 (hat.subset (hsuf.subset h3))

theorem ins1_head {bid fid : List Char} :
    (ins1 bid fid targetFilename).head? = some '\n' := rfl

theorem ins2_head {fid : List Char} :
    (ins2 fid targetFilename).head? = some '\n' := rfl

theorem ege_head {fid : List Char} :
    (extensions_group_entry fid targetFilename).head? = some '\n' := rfl

theorem se_head {bid : List Char} :
    (sources_entry bid targetFilename).head? = some '\n' := rfl

theorem cond_pat1_ins1 {bid fid : List Char} (hb : hexOnly bid) (hf : hexOnly fid) :
    Cond pat1 (ins1 bid fid targetFilename) :=
  cond_lit_firstChar ins1_head (by decide : ('\n' : Char) ∉ anchor1)
    (by decide : ('M' : Char) ∈ anchor1)
    (not_mem_ins1 hb hf (by decide) (by decide) (by decide) (by decide))

theorem cond_pat2_ins1 {bid fid : List Char} (hb : hexOnly bid) (hf : hexOnly fid) :
    Cond pat2 (ins1 bid fid targetFilename) :=
  cond_lit_firstChar ins1_head (by decide : ('\n' : Char) ∉ anchor2)
    (by decide : ('V' : Char) ∈ anchor2)
    (not_mem_ins1 hb hf (by decide) (by decide) (by decide) (by decide))

theorem cond_pat3_ins1 {bid fid : List Char} (hb : hexOnly bid) (hf : hexOnly fid) :
    Cond pat3 (ins1 bid fid targetFilename) :=
  cond_of_lastChar _ _ ',' matches_pat3_lastChar
    (fun hc => not_mem_ins1 hb hf (by decide) (by decide) (by decide) (by decide)
      (List.mem_of_mem_dropLast hc))

theorem cond_pat4_ins1 {bid fid : List Char} (hb : hexOnly bid) (hf : hexOnly fid) :
    Cond pat4 (ins1 bid fid targetFilename) :=
  cond_of_lastChar _ _ ',' matches_pat4_lastChar
    (fun hc => not_mem_ins1 hb hf (by decide) (by decide) (by decide) (by decide)
      (List.mem_of_mem_dropLast hc))

theorem cond_pat1_ins2 {fid : List Char} (hf : hexOnly fid) :
    Cond pat1 (ins2 fid targetFilename) :=
  cond_lit_firstChar ins2_head (by decide : ('\n' : Char) ∉ anchor1)
    (by decide : ('M' : Char) ∈ anchor1)
    (not_mem_ins2 hf (by decide) (by decide) (by decide) (by decide))

theorem cond_pat2_ins2 {fid : List Char} (hf : hexOnly fid) :
    Cond pat2 (ins2 fid targetFilename) :=
  cond_lit_firstChar ins2_head (by decide : ('\n' : Char) ∉ anchor2)
    (by decide : ('V' : Char) ∈ anchor2)
    (not_mem_ins2 hf (by decide) (by decide) (by decide) (by decide))

theorem cond_pat3_ins2 {fid : List Char} (hf : hexOnly fid) :
    Cond pat3 (ins2 fid targetFilename) :=
  cond_of_lastChar _ _ ',' matches_pat3_lastChar
    (fun hc => not_mem_ins2 hf (by decide) (by decide) (by decide) (by decide)
      (List.mem_of_mem_dropLast hc))

theorem cond_pat4_ins2 {fid : List Char} (hf : hexOnly fid) :
    Cond pat4 (ins2 fid targetFilename) :=
  cond_of_lastChar _ _ ',' matches_pat4_lastChar
    (fun hc => not_mem_ins2 hf (by decide) (by decide) (by decide) (by decide)
      (List.mem_of_mem_dropLast hc))

theorem cond_pat1_ege {fid : List Char} (hf : hexOnly fid) :
    Cond pat1 (extensions_group_entry fid targetFilename) :=
  cond_lit_firstChar ege_head (by decide : ('\n' : Char) ∉ anchor1)
    (by decide : ('M' : Char) ∈ anchor1)
    (not_mem_extensions_group_entry hf (by decide) (by decide) (by decide))

theorem cond_pat2_ege {fid : List Char} (hf : hexOnly fid) :
    Cond pat2 (extensions_group_entry fid targetFilename) :=
  cond_lit_firstChar ege_head (by decide : ('\n' : Char) ∉ anchor2)
    (by decide : ('V' : Char) ∈ anchor2)
    (not_mem_extensions_group_entry hf (by decide) (by decide) (by decide))

theorem comma_not_mem_ege_dropLast {fid : List Char} (hf : hexOnly fid) :
    (',' : Char) ∉ (extensions_group_entry fid targetFilename).dropLast := by
  unfold extensions_group_entry
  rw [List.dropLast_append_of_ne_nil _ (by decide : ((" */,").data : List Char) ≠ [])]
  refine not_mem_append (not_mem_append (not_mem_append (not_mem_append
    (by decide) ?_) (by decide)) (by decide)) (by decide)
  intro hc
  exact absurd (hf _ hc) (by decide)

theorem cond_pat3_ege {fid : List Char} (hf : hexOnly fid) :
    Cond pat3 (extensions_group_entry fid targetFilename) :=
  cond_of_lastChar _ _ ',' matches_pat3_lastChar (comma_not_mem_ege_dropLast hf)

theorem cond_pat4_ege {fid : List Char} (hf : hexOnly fid) :
    Cond pat4 (extensions_group_entry fid targetFilename) :=
  cond_of_lastChar _ _ ',' matches_pat4_lastChar (comma_not_mem_ege_dropLast hf)

theorem cond_pat1_se {bid : List Char} (hb : hexOnly bid) :
    Cond pat1 (sources_entry bid targetFilename) :=
  cond_lit_firstChar se_head (by decide : ('\n' : Char) ∉ anchor1)
    (by decide : ('M' : Char) ∈ anchor1)
    (not_mem_sources_entry hb (by decide) (by decide) (by decide))

theorem cond_pat2_se {bid : List Char} (hb : hexOnly bid) :
    Cond pat2 (sources_entry bid targetFilename) :=
  cond_lit_firstChar se_head (by decide : ('\n' : Char) ∉ anchor2)
    (by decide : ('V' : Char) ∈ anchor2)
    (not_mem_sources_entry hb (by decide) (by decide) (by decide))

theorem comma_not_mem_se_dropLast {bid : List Char} (hb : hexOnly bid) :
    (',' : Char) ∉ (sources_entry bid targetFilename).dropLast := by
  unfold sources_entry
  rw [List.dropLast_append_of_ne_nil _
    (by decide : ((" in Sources */,").data : List Char) ≠ [])]
  refine not_mem_append (not_mem_append (not_mem_append (not_mem_append
    (by decide) ?_) (by decide)) (by decide)) (by decide)
  intro hc
  exact absurd (hb _ hc) (by decide)

theorem cond_pat3_se {bid : List Char} (hb : hexOnly bid) :
    Cond pat3 (sources_entry bid targetFilename) :=
  cond_of_lastChar _ _ ',' matches_pat3_lastChar (comma_not_mem_se_dropLast hb)

theorem cond_pat4_se {bid : List Char} (hb : hexOnly bid) :
    Cond pat4 (sources_entry bid targetFilename) :=
  cond_of_lastChar _ _ ',' matches_pat4_lastChar (comma_not_mem_se_dropLast hb)

/-! ### Stage-level composition lemmas -/

/-- A literal substitution inserts the entry after an occurrence of its anchor. -/
theorem subst_lit_creates {L : List Char} (hL : L ≠ []) (ins s : List Char)
    (h : L <:+: s) : (L ++ ins) <:+: reSubA [Tok.lit L] ins s := by
  obtain ⟨x, y, r, hs, hy⟩ := infix_matchToks h
  subst hs
  obtain ⟨m', hM, _, hinf⟩ :=
    reSubA_exists [Tok.lit L] ins (neverEmpty_of_lit_head hL _) x y L r hy
  rwa [matches_lit_eq hM] at hinf

/-- Preservation, packaged for an infix occurrence. -/
theorem subst_preserves {pat : List Tok} {t : List Char} (hC : Cond pat t)
    (hne : NeverEmpty pat) (ht : t ≠ []) (ins s : List Char) (h : t <:+: s) :
    t <:+: reSubA pat ins s := by
  obtain ⟨u, v, huv⟩ := h
  have := reSubA_infix_preserved pat ins t hC hne ht u.length u (le_refl _) v
  rwa [show u ++ (t ++ v) = u ++ t ++ v by simp, huv] at this

/-- `pat` matches somewhere in `s`. -/
def MatchableIn (pat : List Tok) (s : List Char) : Prop :=
  ∃ x y m r, s = x ++ y ∧ matchToks pat y = some (m, r)

theorem matchableIn_of_infix {L s : List Char} (h : L <:+: s) :
    MatchableIn [Tok.lit L] s := by
  obtain ⟨x, y, r, hs, hy⟩ := infix_matchToks h
  exact ⟨x, y, L, r, hs, hy⟩

/-- The `pat3` substitution inserts the entry right after the group-children
anchor (every match ends with `ext4`). -/
theorem subst_pat3_creates (ins s : List Char) (h : MatchableIn pat3 s) :
    (ext4 ++ ins) <:+: reSubA pat3 ins s := by
  obtain ⟨x, y, m, r, hs, hy⟩ := h
  subst hs
  obtain ⟨m', hM, _, hinf⟩ := reSubA_exists pat3 ins neverEmpty_pat3 x y m r hy
  obtain ⟨u, hu⟩ := matches_pat3_last hM
  obtain ⟨p, q, hpq⟩ := hinf
  exact ⟨p ++ u, q, by rw [← hpq, ← hu]; simp⟩

/-- A `pat3` match survives any substitution that satisfies the safety
condition for shaped `pat3` matches. -/
theorem subst_preserves_matchable {pat : List Tok} (hne : NeverEmpty pat)
    {s : List Char} (h : MatchableIn pat3 s)
    (hcond : ∀ m', Shaped pat3 m' → Cond pat m') (ins : List Char) :
    MatchableIn pat3 (reSubA pat ins s) := by
  obtain ⟨x, y, m, r, hs, hy⟩ := h
  have hsh : Shaped pat3 m := matchToks_shaped pat3 y m r hy
  have hmr := matchToks_eq pat3 y m r hy
  have hinf : m <:+: s := ⟨x, r, by rw [hs, ← hmr]; simp⟩
  have hmne : m ≠ [] := neverEmpty_pat3 y m r hy
  obtain ⟨u, v, huv⟩ := subst_preserves (hcond m hsh) hne hmne ins s hinf
  exact ⟨u, m ++ v, m, v, by rw [← huv]; simp, shaped_parse pat3_wellFormed hsh v⟩

/-- A literal anchor still occurs after its own substitution ran (the anchor
is kept, the entry is added after it). -/
theorem subst_lit_keeps_anchor {L : List Char} (hL : L ≠ []) (ins s : List Char)
    (h : L <:+: s) : L <:+: reSubA [Tok.lit L] ins s := by
  obtain ⟨u, v, huv⟩ := subst_lit_creates hL ins s h
  exact ⟨u, ins ++ v, by rw [← huv]; simp⟩

/-- A `pat3` match still occurs after the `pat3` substitution ran. -/
theorem subst_pat3_keeps_matchable (ins s : List Char) (h : MatchableIn pat3 s) :
    MatchableIn pat3 (reSubA pat3 ins s) := by
  obtain ⟨x, y, m, r, hs, hy⟩ := h
  subst hs
  obtain ⟨m', hM, hm', hinf⟩ := reSubA_exists pat3 ins neverEmpty_pat3 x y m r hy
  obtain ⟨s', r', hM'⟩ := hM
  have hsh' : Shaped pat3 m' := matchToks_shaped pat3 s' m' r' hM'
  obtain ⟨p, q, hpq⟩ := hinf
  refine ⟨p, m' ++ (ins ++ q), m', ins ++ q, by rw [← hpq]; simp, ?_⟩
  exact shaped_parse pat3_wellFormed hsh' (ins ++ q)

/-! ### Whole-patch composition lemmas -/

theorem t1_ne_nil {bid fid : List Char} : anchor1 ++ ins1 bid fid targetFilename ≠ [] :=
  fun h => anchor1_ne_nil (List.append_eq_nil.mp h).1

theorem t2_ne_nil {fid : List Char} : anchor2 ++ ins2 fid targetFilename ≠ [] :=
  fun h => anchor2_ne_nil (List.append_eq_nil.mp h).1

theorem t3_ne_nil {fid : List Char} :
    ext4 ++ extensions_group_entry fid targetFilename ≠ [] :=
  fun h => absurd (List.append_eq_nil.mp h).1 (by decide)

/-- The patch inserts the PBXBuildFile entry right after the
`Color+MindSync.swift` build-file anchor. -/
theorem patch_creates_t1 {content bid fid : List Char} (hb : hexOnly bid)
    (hf : hexOnly fid) (h : anchor1 <:+: content) :
    (anchor1 ++ ins1 bid fid targetFilename) <:+:
      add_file_to_project_text content bid fid targetFilename := by
  unfold add_file_to_project_text
  have h1 := subst_lit_creates anchor1_ne_nil (ins1 bid fid targetFilename) content h
  have h2 := subst_preserves (cond_pat2_t1 hb hf) neverEmpty_pat2 t1_ne_nil
    (ins2 fid targetFilename) _ h1
  have h3 := subst_preserves (cond_pat3_t1 hb hf) neverEmpty_pat3 t1_ne_nil
    (extensions_group_entry fid targetFilename) _ h2
  exact subst_preserves (cond_pat4_t1 hb hf) neverEmpty_pat4 t1_ne_nil
    (sources_entry bid targetFilename) _ h3

/-- The patch inserts the PBXFileReference entry right after the
`View+Gestures.swift` file-reference anchor. -/
theorem patch_creates_t2 {content bid fid : List Char} (hf : hexOnly fid)
    (h : anchor2 <:+: content) :
    (anchor2 ++ ins2 fid targetFilename) <:+:
      add_file_to_project_text content bid fid targetFilename := by
  unfold add_file_to_project_text
  have h1 := subst_preserves cond_pat1_anchor2 neverEmpty_pat1 anchor2_ne_nil
    (ins1 bid fid targetFilename) content h
  have h2 := subst_lit_creates anchor2_ne_nil (ins2 fid targetFilename) _ h1
  have h3 := subst_preserves (cond_pat3_t2 hf) neverEmpty_pat3 t2_ne_nil
    (extensions_group_entry fid targetFilename) _ h2
  exact subst_preserves (cond_pat4_t2 hf) neverEmpty_pat4 t2_ne_nil
    (sources_entry bid targetFilename) _ h3

/-- The patch appends the new child entry right after the
`Color+MindSync.swift` child of the Extensions group's children list. -/
theorem patch_creates_t3 {content bid fid : List Char} (hf : hexOnly fid)
    (h : MatchableIn pat3 content) :
    (ext4 ++ extensions_group_entry fid targetFilename) <:+:
      add_file_to_project_text content bid fid targetFilename := by
  unfold add_file_to_project_text
  have h1 := subst_preserves_matchable neverEmpty_pat1 h
    (fun _ hsh => cond_pat1_m3 hsh) (ins1 bid fid targetFilename)
  have h2 := subst_preserves_matchable neverEmpty_pat2 h1
    (fun _ hsh => cond_pat2_m3 hsh) (ins2 fid targetFilename)
  have h3 := subst_pat3_creates (extensions_group_entry fid targetFilename) _ h2
  exact subst_preserves (cond_pat4_t3 hf) neverEmpty_pat4 t3_ne_nil
    (sources_entry bid targetFilename) _ h3

/-- The patch appends the new sources-build-phase member right after the
`View+Gestures.swift` member. -/
theorem patch_creates_t4 {content bid fid : List Char}
    (h : anchor4 <:+: content) :
    (anchor4 ++ sources_entry bid targetFilename) <:+:
      add_file_to_project_text content bid fid targetFilename := by
  unfold add_file_to_project_text
  have h1 := subst_preserves cond_pat1_anchor4 neverEmpty_pat1 anchor4_ne_nil
    (ins1 bid fid targetFilename) content h
  have h2 := subst_preserves cond_pat2_anchor4 neverEmpty_pat2 anchor4_ne_nil
    (ins2 fid targetFilename) _ h1
  have h3 := subst_preserves cond_pat3_anchor4 neverEmpty_pat3 anchor4_ne_nil
    (extensions_group_entry fid targetFilename) _ h2
  exact subst_lit_creates anchor4_ne_nil (sources_entry bid targetFilename) _ h3

/-- A target that no substitution can break survives the whole patch. -/
theorem patch_preserves {t : List Char} (ht : t ≠ [])
    (c1 : Cond pat1 t) (c2 : Cond pat2 t) (c3 : Cond pat3 t) (c4 : Cond pat4 t)
    {content : List Char} (bid fid : List Char) (h : t <:+: content) :
    t <:+: add_file_to_project_text content bid fid targetFilename := by
  unfold add_file_to_project_text
  have h1 := subst_preserves c1 neverEmpty_pat1 ht (ins1 bid fid targetFilename) content h
  have h2 := subst_preserves c2 neverEmpty_pat2 ht (ins2 fid targetFilename) _ h1
  have h3 := subst_preserves c3 neverEmpty_pat3 ht
    (extensions_group_entry fid targetFilename) _ h2
  exact subst_preserves c4 neverEmpty_pat4 ht (sources_entry bid targetFilename) _ h3

/-- Each anchor still occurs, unchanged, in the patched text. -/
theorem patch_keeps_anchor1 {content : List Char} (bid fid : List Char)
    (h : anchor1 <:+: content) :
    anchor1 <:+: add_file_to_project_text content bid fid targetFilename := by
  unfold add_file_to_project_text
  have h1 := subst_lit_keeps_anchor anchor1_ne_nil (ins1 bid fid targetFilename) content h
  have h2 := subst_preserves cond_pat2_anchor1 neverEmpty_pat2 anchor1_ne_nil
    (ins2 fid targetFilename) _ h1
  have h3 := subst_preserves cond_pat3_anchor1 neverEmpty_pat3 anchor1_ne_nil
    (extensions_group_entry fid targetFilename) _ h2
  exact subst_preserves cond_pat4_anchor1 neverEmpty_pat4 anchor1_ne_nil
    (sources_entry bid targetFilename) _ h3

theorem patch_keeps_anchor2 {content : List Char} (bid fid : List Char)
    (h : anchor2 <:+: content) :
    anchor2 <:+: add_file_to_project_text content bid fid targetFilename := by
  unfold add_file_to_project_text
  have h1 := subst_preserves cond_pat1_anchor2 neverEmpty_pat1 anchor2_ne_nil
    (ins1 bid fid targetFilename) content h
  have h2 := subst_lit_keeps_anchor anchor2_ne_nil (ins2 fid targetFilename) _ h1
  have h3 := subst_preserves cond_pat3_anchor2 neverEmpty_pat3 anchor2_ne_nil
    (extensions_group_entry fid targetFilename) _ h2
  exact subst_preserves cond_pat4_anchor2 neverEmpty_pat4 anchor2_ne_nil
    (sources_entry bid targetFilename) _ h3

theorem patch_keeps_matchable3 {content : List Char} (bid fid : List Char)
    (h : MatchableIn pat3 content) :
    MatchableIn pat3 (add_file_to_project_text content bid fid targetFilename) := by
  unfold add_file_to_project_text
  have h1 := subst_preserves_matchable neverEmpty_pat1 h
    (fun _ hsh => cond_pat1_m3 hsh) (ins1 bid fid targetFilename)
  have h2 := subst_preserves_matchable neverEmpty_pat2 h1
    (fun _ hsh => cond_pat2_m3 hsh) (ins2 fid targetFilename)
  have h3 := subst_pat3_keeps_matchable (extensions_group_entry fid targetFilename) _ h2
  exact subst_preserves_matchable neverEmpty_pat4 h3
    (fun _ hsh => cond_pat4_m3 hsh) (sources_entry bid targetFilename)

theorem patch_keeps_anchor4 {content : List Char} (bid fid : List Char)
    (h : anchor4 <:+: content) :
    anchor4 <:+: add_file_to_project_text content bid fid targetFilename := by
  unfold add_file_to_project_text
  have h1 := subst_preserves cond_pat1_anchor4 neverEmpty_pat1 anchor4_ne_nil
    (ins1 bid fid targetFilename) content h
  have h2 := subst_preserves cond_pat2_anchor4 neverEmpty_pat2 anchor4_ne_nil
    (ins2 fid targetFilename) _ h1
  have h3 := subst_preserves cond_pat3_anchor4 neverEmpty_pat3 anchor4_ne_nil
    (extensions_group_entry fid targetFilename) _ h2
  exact subst_lit_keeps_anchor anchor4_ne_nil (sources_entry bid targetFilename) _ h3

/-- The whole patch only inserts: the original text is a subsequence of the
patched text. -/
theorem patch_sublist (content bid fid fname : List Char) :
    List.Sublist content (add_file_to_project_text content bid fid fname) := by
  unfold add_file_to_project_text
  have h1 := reSubA_sublist pat1 (ins1 bid fid fname) content.length content (le_refl _)
  have h2 := reSubA_sublist pat2 (ins2 fid fname) _ _
    (le_refl (reSubA pat1 (ins1 bid fid fname) content).length)
  have h3 := reSubA_sublist pat3 (extensions_group_entry fid fname) _ _
    (le_refl (reSubA pat2 (ins2 fid fname)
      (reSubA pat1 (ins1 bid fid fname) content)).length)
  have h4 := reSubA_sublist pat4 (sources_entry bid fname) _ _
    (le_refl (reSubA pat3 (extensions_group_entry fid fname)
      (reSubA pat2 (ins2 fid fname)
        (reSubA pat1 (ins1 bid fid fname) content))).length)
  exact ((h1.trans h2).trans h3).trans h4

/-! ### Global substitution: designated occurrences (for claim C9) -/

/-- Interleave gaps and designated matches: the input text. -/
def interIn : List (List Char) → List (List Char) → List Char
  | x :: gs, m :: ms => x ++ m ++ interIn gs ms
  | x :: _, [] => x
  | [], _ => []

/-- Interleave gaps and designated matches with the entry inserted after each
match: the expected output text. -/
def interOut (ins : List Char) : List (List Char) → List (List Char) → List Char
  | x :: gs, m :: ms => x ++ m ++ ins ++ interOut ins gs ms
  | x :: _, [] => x
  | [], _ => []

/-- The designated matches are exactly the places where `pat` matches: no
match starts inside a gap, and each designated match parses as itself. -/
inductive ChainOK (pat : List Tok) : List (List Char) → List (List Char) → Prop
  | last (x : List Char) :
      (∀ v ∈ x.tails, v ≠ [] → matchToks pat v = none) → ChainOK pat [x] []
  | cons (x m : List Char) (gs ms : List (List Char)) :
      (∀ v ∈ x.tails, v ≠ [] → matchToks pat (v ++ (m ++ interIn gs ms)) = none) →
      matchToks pat (m ++ interIn gs ms) = some (m, interIn gs ms) →
      m ≠ [] →
      ChainOK pat gs ms → ChainOK pat (x :: gs) (m :: ms)

/-- The substitution is global: it inserts the entry after every designated
occurrence, with the same inserted text each time. -/
theorem reSubA_global (pat : List Tok) (ins : List Char) :
    ∀ (gs ms : List (List Char)), ChainOK pat gs ms →
      reSubA pat ins (interIn gs ms) = interOut ins gs ms := by
  intro gs ms h
  induction h with
  | last x hx =>
    show reSubA pat ins (interIn [x] []) = interOut ins [x] []
    rw [show interIn [x] [] = x from rfl, show interOut ins [x] [] = x from rfl]
    exact reSubA_id pat ins x hx
  | cons x m gs' ms' hx hm hmne hrec ih =>
    show reSubA pat ins (interIn (x :: gs') (m :: ms')) = interOut ins (x :: gs') (m :: ms')
    rw [show interIn (x :: gs') (m :: ms') = x ++ (m ++ interIn gs' ms') by
      simp [interIn]]
    rw [reSubA_skip pat ins x (m ++ interIn gs' ms') hx]
    have hmnil : m ++ interIn gs' ms' ≠ [] := by
      intro hcon
      exact hmne (List.append_eq_nil.mp hcon).1
    obtain ⟨c, rest, hcr⟩ := List.exists_cons_of_ne_nil hmnil
    rw [hcr] at hm ⊢
    rw [reSubA_match hm hmne ins, ih]
    rw [show interOut ins (x :: gs') (m :: ms') = x ++ m ++ ins ++ interOut ins gs' ms'
      from rfl]
    simp [List.append_assoc]

/-! ### The file paths -/

theorem dropWhile_append_left {p : Char → Bool} {A : List Char} (B : List Char)
    (h : A.dropWhile p ≠ []) : (A ++ B).dropWhile p = A.dropWhile p ++ B := by
  induction A with
  | nil => simp at h
  | cons a A ih =>
    by_cases hpa : p a
    · rw [List.dropWhile_cons_of_pos hpa] at h
      rw [show (a :: A) ++ B = a :: (A ++ B) from rfl,
        List.dropWhile_cons_of_pos hpa, List.dropWhile_cons_of_pos hpa]
      exact ih h
    · rw [show (a :: A) ++ B = a :: (A ++ B) from rfl,
        List.dropWhile_cons_of_neg hpa, List.dropWhile_cons_of_neg hpa]
      rfl

theorem drop_one_append {A : List Char} (B : List Char) (h : A ≠ []) :
    (A ++ B).drop 1 = A.drop 1 ++ B := by
  cases A with
  | nil => exact absurd rfl h
  | cons a A => simp

theorem mk_append (root : String) (s : String) :
    String.mk (root.data ++ s.data) = root ++ s := by
  have h := String.data_append root s
  calc String.mk (root.data ++ s.data) = String.mk ((root ++ s).data) := by rw [h]
    _ = root ++ s := rfl

/-- `Path.with_suffix` turns `…/project.pbxproj` into `…/project.pbxproj.backup`. -/
theorem backupPath_eq (root : String) :
    backupPath root = root ++ "/MindSync/MindSync.xcodeproj/project.pbxproj.backup" := by
  unfold backupPath with_suffix pbxprojPath
  rw [String.data_append root "/MindSync/MindSync.xcodeproj/project.pbxproj"]
  rw [if_pos (List.mem_append.mpr (Or.inr (by decide)))]
  rw [List.reverse_append]
  rw [dropWhile_append_left root.data.reverse (by decide)]
  rw [drop_one_append root.data.reverse (by decide)]
  rw [List.reverse_append, List.reverse_reverse]
  rw [← mk_append root "/MindSync/MindSync.xcodeproj/project.pbxproj.backup"]
  congr 1
  rw [List.append_assoc]
  congr 1

theorem backupPath_ne (root : String) : backupPath root ≠ pbxprojPath root := by
  rw [backupPath_eq]
  unfold pbxprojPath
  intro h
  have h2 := congrArg String.length h
  rw [String.length_append, String.length_append] at h2
  have h3 := Nat.add_left_cancel h2
  exact absurd h3 (by decide)

/-! ### Behaviour of the `__main__` flow -/

theorem fsWrite_self (fs : FS) (p : String) (v : List Char) : fsWrite fs p v p = some v := by
  unfold fsWrite
  rw [if_pos rfl]

theorem fsWrite_other (fs : FS) {p q : String} (v : List Char) (h : q ≠ p) :
    fsWrite fs p v q = fs q := by
  unfold fsWrite
  rw [if_neg h]

theorem runMain_missing (fs : FS) (root : String) (pick1 pick2 : Fin 24 → Fin 16)
    (fault : Option (List Char)) (hfs : fs (pbxprojPath root) = none) :
    runMain fs root pick1 pick2 fault =
      { trace := [fs], finalFS := fs, exitCode := 1,
        stderr := ["Error: Could not find " ++ pbxprojPath root] } := by
  simp only [runMain, hfs]

theorem runMain_ok (fs : FS) (root : String) (pick1 pick2 : Fin 24 → Fin 16)
    {orig : List Char} (hfs : fs (pbxprojPath root) = some orig) :
    runMain fs root pick1 pick2 none =
      { trace := [fs, fsWrite fs (backupPath root) orig,
          fsWrite (fsWrite fs (backupPath root) orig) (pbxprojPath root)
            (add_file_to_project_text orig (generate_xcode_id pick1)
              (generate_xcode_id pick2) targetFilename)],
        finalFS := fsWrite (fsWrite fs (backupPath root) orig) (pbxprojPath root)
            (add_file_to_project_text orig (generate_xcode_id pick1)
              (generate_xcode_id pick2) targetFilename),
        exitCode := 0, stderr := [] } := by
  simp only [runMain, hfs]

theorem runMain_fault (fs : FS) (root : String) (pick1 pick2 : Fin 24 → Fin 16)
    {orig : List Char} (broken : List Char) (hfs : fs (pbxprojPath root) = some orig) :
    runMain fs root pick1 pick2 (some broken) =
      { trace := [fs, fsWrite fs (backupPath root) orig,
          fsWrite (fsWrite fs (backupPath root) orig) (pbxprojPath root) broken,
          fsWrite (fsWrite (fsWrite fs (backupPath root) orig) (pbxprojPath root) broken)
            (pbxprojPath root) orig],
        finalFS :=
          fsWrite (fsWrite (fsWrite fs (backupPath root) orig) (pbxprojPath root) broken)
            (pbxprojPath root) orig,
        exitCode := 1, stderr := ["Error", "Restoring from backup..."] } := by
  have hbak : fsWrite (fsWrite fs (backupPath root) orig) (pbxprojPath root) broken
      (backupPath root) = some orig := by
    rw [fsWrite_other _ _ (backupPath_ne root), fsWrite_self]
  simp only [runMain, hfs, hbak]

theorem ne_nil_of_head {l : List Char} {c : Char} (h : l.head? = some c) : l ≠ [] := by
  intro hl
  rw [hl] at h
  cases h

/-! ### Concrete demonstration inputs (used by the witnesses) -/

/-- A concrete 24-digit hexadecimal id. -/
def demoId1 : List Char := List.replicate 24 'A'

/-- Another concrete 24-digit hexadecimal id. -/
def demoId2 : List Char := List.replicate 24 'B'

/-- A concrete match of the Extensions-group pattern. -/
def demoM3 : List Char := ext1 ++ '\n' :: (ext2 ++ '\n' :: (ext3 ++ '\n' :: ext4))

/-- A concrete descriptor containing all four anchors. -/
def demoContent : List Char :=
  anchor1 ++ '\n' :: (anchor2 ++ '\n' :: (demoM3 ++ '\n' :: anchor4))

theorem demo_anchor1 : anchor1 <:+: demoContent :=
  ⟨[], '\n' :: (anchor2 ++ '\n' :: (demoM3 ++ '\n' :: anchor4)), rfl⟩

theorem demo_anchor2 : anchor2 <:+: demoContent :=
  ⟨anchor1 ++ ['\n'], '\n' :: (demoM3 ++ '\n' :: anchor4), by
    show _ = demoContent
    simp [demoContent]⟩

theorem demo_anchor4 : anchor4 <:+: demoContent :=
  ⟨anchor1 ++ '\n' :: (anchor2 ++ '\n' :: (demoM3 ++ ['\n'])), [], by
    show _ = demoContent
    simp [demoContent]⟩

theorem demo_matchable3 : MatchableIn pat3 demoContent := by
  refine ⟨anchor1 ++ '\n' :: (anchor2 ++ ['\n']), demoM3 ++ ('\n' :: anchor4),
    demoM3, '\n' :: anchor4, ?_, ?_⟩
  · show demoContent = _
    simp [demoContent]
  · decide

/-- A concrete sequence of random draws. -/
def demoPick0 : Fin 24 → Fin 16 := fun _ => 0

theorem demo_hex1 : hexOnly demoId1 :=
  show ∀ c ∈ demoId1, c ∈ hexAlphabet by decide

theorem demo_hex2 : hexOnly demoId2 :=
  show ∀ c ∈ demoId2, c ∈ hexAlphabet by decide

/-! ### The claims -/

/-- C1: for every descriptor text containing the literal
`Color+MindSync.swift` build-file anchor line, the patch for filename
`String+AudioFile.swift` produces a text in which, immediately after that
anchor, a newline and the new PBXBuildFile entry
`{bid} /* String+AudioFile.swift in Sources */ = {isa = PBXBuildFile;
fileRef = {fid} /* String+AudioFile.swift */; };` (with the two tabs the code
prepends) appear; and analogous new entries are inserted immediately after
each of the three other anchors when they occur (the `View+Gestures.swift`
file-reference record, the Extensions group's children list opening with
`Color+MindSync.swift`, and the `View+Gestures.swift` sources-build-phase
member). -/
theorem claim_C1 (content bid fid : List Char) (hb : hexOnly bid) (hf : hexOnly fid)
    (h1 : anchor1 <:+: content) :
    (anchor1 ++ ins1 bid fid targetFilename) <:+:
        add_file_to_project_text content bid fid targetFilename ∧
    (anchor2 <:+: content →
      (anchor2 ++ ins2 fid targetFilename) <:+:
        add_file_to_project_text content bid fid targetFilename) ∧
    (MatchableIn pat3 content →
      (ext4 ++ extensions_group_entry fid targetFilename) <:+:
        add_file_to_project_text content bid fid targetFilename) ∧
    (anchor4 <:+: content →
      (anchor4 ++ sources_entry bid targetFilename) <:+:
        add_file_to_project_text content bid fid targetFilename) :=
  ⟨patch_creates_t1 hb hf h1,
   fun h2 => patch_creates_t2 hf h2,
   fun h3 => patch_creates_t3 hf h3,
   fun h4 => patch_creates_t4 h4⟩

/-- Witness for C1 at a concrete descriptor containing all four anchors and
concrete hexadecimal ids. -/
theorem claim_C1_witness :
    (hexOnly demoId1 ∧ hexOnly demoId2 ∧ anchor1 <:+: demoContent ∧
      anchor2 <:+: demoContent ∧ MatchableIn pat3 demoContent ∧
      anchor4 <:+: demoContent) ∧
    ((anchor1 ++ ins1 demoId1 demoId2 targetFilename) <:+:
        add_file_to_project_text demoContent demoId1 demoId2 targetFilename ∧
      (anchor2 ++ ins2 demoId2 targetFilename) <:+:
        add_file_to_project_text demoContent demoId1 demoId2 targetFilename ∧
      (ext4 ++ extensions_group_entry demoId2 targetFilename) <:+:
        add_file_to_project_text demoContent demoId1 demoId2 targetFilename ∧
      (anchor4 ++ sources_entry demoId1 targetFilename) <:+:
        add_file_to_project_text demoContent demoId1 demoId2 targetFilename) := by
  have h := claim_C1 demoContent demoId1 demoId2 demo_hex1 demo_hex2 demo_anchor1
  exact ⟨⟨demo_hex1, demo_hex2, demo_anchor1, demo_anchor2, demo_matchable3,
      demo_anchor4⟩,
    h.1, h.2.1 demo_anchor2, h.2.2.1 demo_matchable3, h.2.2.2 demo_anchor4⟩

/-- C6: `generate_xcode_id` always returns a string of exactly 24 characters,
each drawn from the hexadecimal alphabet `0123456789ABCDEF`; in particular
both generated identifiers of a run satisfy this, whatever the random draws
are. -/
theorem claim_C6 (pick : Fin 24 → Fin 16) :
    (generate_xcode_id pick).length = 24 ∧
    ∀ c ∈ generate_xcode_id pick, c ∈ hexAlphabet := by
  constructor
  · simp [generate_xcode_id]
  · intro c hc
    simp only [generate_xcode_id, List.mem_ofFn] at hc
    obtain ⟨i, hi⟩ := hc
    rw [← hi]
    exact List.get_mem _ _ _

/-- Witness for C6 at a concrete sequence of draws. -/
theorem claim_C6_witness :
    (generate_xcode_id demoPick0).length = 24 ∧
    ∀ c ∈ generate_xcode_id demoPick0, c ∈ hexAlphabet :=
  claim_C6 demoPick0

/-- C8 (implicit): the transformation is insert-only — the whole original
text survives as a subsequence (no character deleted or altered), and every
anchor occurrence present in the input is still present, unchanged, in the
output. -/
theorem claim_C8 (content bid fid : List Char) :
    List.Sublist content (add_file_to_project_text content bid fid targetFilename) ∧
    (anchor1 <:+: content →
      anchor1 <:+: add_file_to_project_text content bid fid targetFilename) ∧
    (anchor2 <:+: content →
      anchor2 <:+: add_file_to_project_text content bid fid targetFilename) ∧
    (MatchableIn pat3 content →
      MatchableIn pat3 (add_file_to_project_text content bid fid targetFilename)) ∧
    (anchor4 <:+: content →
      anchor4 <:+: add_file_to_project_text content bid fid targetFilename) :=
  ⟨patch_sublist content bid fid targetFilename,
   fun h => patch_keeps_anchor1 bid fid h,
   fun h => patch_keeps_anchor2 bid fid h,
   fun h => patch_keeps_matchable3 bid fid h,
   fun h => patch_keeps_anchor4 bid fid h⟩

/-- Witness for C8 at a concrete descriptor containing all four anchors. -/
theorem claim_C8_witness :
    (anchor1 <:+: demoContent ∧ anchor2 <:+: demoContent ∧
      MatchableIn pat3 demoContent ∧ anchor4 <:+: demoContent) ∧
    (anchor1 <:+: add_file_to_project_text demoContent demoId1 demoId2 targetFilename ∧
      anchor2 <:+: add_file_to_project_text demoContent demoId1 demoId2 targetFilename ∧
      MatchableIn pat3 (add_file_to_project_text demoContent demoId1 demoId2 targetFilename) ∧
      anchor4 <:+: add_file_to_project_text demoContent demoId1 demoId2 targetFilename) := by
  have h := claim_C8 demoContent demoId1 demoId2
  exact ⟨⟨demo_anchor1, demo_anchor2, demo_matchable3, demo_anchor4⟩,
    h.2.1 demo_anchor1, h.2.2.1 demo_anchor2, h.2.2.2.1 demo_matchable3,
    h.2.2.2.2 demo_anchor4⟩

/-- C9 (implicit): each of the four substitutions is global, not
first-match-only: a text presented as gaps interleaved with `k` designated
matches (with no other match anywhere, `ChainOK`) is rewritten with the
entry inserted after every one of the `k` matches, every inserted copy
carrying the same generated identifier pair of the run. -/
theorem claim_C9 (bid fid : List Char) (gs ms : List (List Char)) :
    (ChainOK pat1 gs ms →
      reSubA pat1 (ins1 bid fid targetFilename) (interIn gs ms) =
        interOut (ins1 bid fid targetFilename) gs ms) ∧
    (ChainOK pat2 gs ms →
      reSubA pat2 (ins2 fid targetFilename) (interIn gs ms) =
        interOut (ins2 fid targetFilename) gs ms) ∧
    (ChainOK pat3 gs ms →
      reSubA pat3 (extensions_group_entry fid targetFilename) (interIn gs ms) =
        interOut (extensions_group_entry fid targetFilename) gs ms) ∧
    (ChainOK pat4 gs ms →
      reSubA pat4 (sources_entry bid targetFilename) (interIn gs ms) =
        interOut (sources_entry bid targetFilename) gs ms) :=
  ⟨fun h => reSubA_global pat1 _ gs ms h,
   fun h => reSubA_global pat2 _ gs ms h,
   fun h => reSubA_global pat3 _ gs ms h,
   fun h => reSubA_global pat4 _ gs ms h⟩

/-- Witness for C9: two designated occurrences of the build-file anchor in a
row are both rewritten. -/
theorem claim_C9_witness :
    ChainOK pat1 [[], [], []] [anchor1, anchor1] ∧
    reSubA pat1 (ins1 demoId1 demoId2 targetFilename)
        (interIn [[], [], []] [anchor1, anchor1]) =
      interOut (ins1 demoId1 demoId2 targetFilename) [[], [], []] [anchor1, anchor1] := by
  have hlast : ChainOK pat1 [[]] [] := by
    refine ChainOK.last [] ?_
    intro v hv hvne
    simp at hv
    exact absurd hv hvne
  have hch1 : ChainOK pat1 [[], []] [anchor1] := by
    refine ChainOK.cons [] anchor1 [[]] [] ?_ ?_ ?_ hlast
    · intro v hv hvne
      simp at hv
      exact absurd hv hvne
    · decide
    · decide
  have hch : ChainOK pat1 [[], [], []] [anchor1, anchor1] := by
    refine ChainOK.cons [] anchor1 [[], []] [anchor1] ?_ ?_ ?_ hch1
    · intro v hv hvne
      simp at hv
      exact absurd hv hvne
    · decide
    · decide
  exact ⟨hch, (claim_C9 demoId1 demoId2 [[], [], []] [anchor1, anchor1]).1 hch⟩

/-- C10 (implicit): for a fixed generated identifier pair, the text
transformation is a deterministic function of the descriptor text and the
filename — equal inputs give equal outputs. -/
theorem claim_C10 (c1 c2 bid1 bid2 fid1 fid2 fn1 fn2 : List Char)
    (hc : c1 = c2) (hb : bid1 = bid2) (hf : fid1 = fid2) (hn : fn1 = fn2) :
    add_file_to_project_text c1 bid1 fid1 fn1 =
      add_file_to_project_text c2 bid2 fid2 fn2 := by
  subst hc
  subst hb
  subst hf
  subst hn
  rfl

/-- Witness for C10 at concrete inputs. -/
theorem claim_C10_witness :
    (demoContent = demoContent ∧ demoId1 = demoId1 ∧ demoId2 = demoId2 ∧
      targetFilename = targetFilename) ∧
    add_file_to_project_text demoContent demoId1 demoId2 targetFilename =
      add_file_to_project_text demoContent demoId1 demoId2 targetFilename :=
  ⟨⟨rfl, rfl, rfl, rfl⟩,
    claim_C10 demoContent demoContent demoId1 demoId1 demoId2 demoId2
      targetFilename targetFilename rfl rfl rfl rfl⟩

/-- C2: if an exception is raised during the transformation or the write
(after the backup was created), the descriptor's final on-disk content
equals its pre-patch content exactly (restored from the backup), the error
is reported to standard error, and the process exits with a non-zero
status. -/
theorem claim_C2 (fs : FS) (root : String) (pick1 pick2 : Fin 24 → Fin 16)
    (orig broken : List Char) (hfs : fs (pbxprojPath root) = some orig) :
    (runMain fs root pick1 pick2 (some broken)).finalFS (pbxprojPath root) = some orig ∧
    (runMain fs root pick1 pick2 (some broken)).exitCode ≠ 0 ∧
    (runMain fs root pick1 pick2 (some broken)).stderr ≠ [] := by
  rw [runMain_fault fs root pick1 pick2 broken hfs]
  exact ⟨fsWrite_self _ _ _, by simp, by simp⟩

/-- The file system of the witnesses: the descriptor exists with the
demonstration content, nothing else does. -/
def demoFS : FS := fun p => if p = pbxprojPath "/r" then some demoContent else none

def demoPick : Fin 24 → Fin 16 := fun _ => 0

theorem demoFS_pbx : demoFS (pbxprojPath "/r") = some demoContent := by
  unfold demoFS
  rw [if_pos rfl]

/-- Witness for C2: a failure leaving a partially written (empty) descriptor
is rolled back. -/
theorem claim_C2_witness :
    demoFS (pbxprojPath "/r") = some demoContent ∧
    ((runMain demoFS "/r" demoPick demoPick (some [])).finalFS (pbxprojPath "/r") =
        some demoContent ∧
      (runMain demoFS "/r" demoPick demoPick (some [])).exitCode ≠ 0 ∧
      (runMain demoFS "/r" demoPick demoPick (some [])).stderr ≠ []) :=
  ⟨demoFS_pbx, claim_C2 demoFS "/r" demoPick demoPick demoContent [] demoFS_pbx⟩

/-- C3: if the descriptor exists but contains none of the four anchor
substrings, every substitution is a no-op (the transformation returns the
text unchanged, whatever the generated ids), the tool exits 0, the
descriptor is rewritten with content identical to the original, and the
backup contains that same content; no error is raised for a non-matching
anchor. -/
theorem claim_C3 (fs : FS) (root : String) (pick1 pick2 : Fin 24 → Fin 16)
    (orig : List Char) (hfs : fs (pbxprojPath root) = some orig)
    (h1 : ¬ anchor1 <:+: orig) (h2 : ¬ anchor2 <:+: orig)
    (h3 : ∀ v ∈ orig.tails, v ≠ [] → matchToks pat3 v = none)
    (h4 : ¬ anchor4 <:+: orig) :
    (∀ bid fid, add_file_to_project_text orig bid fid targetFilename = orig) ∧
    (runMain fs root pick1 pick2 none).exitCode = 0 ∧
    (runMain fs root pick1 pick2 none).finalFS (pbxprojPath root) = some orig ∧
    (runMain fs root pick1 pick2 none).finalFS (backupPath root) = some orig ∧
    (runMain fs root pick1 pick2 none).stderr = [] := by
  have hno : ∀ bid fid, add_file_to_project_text orig bid fid targetFilename = orig := by
    intro bid fid
    unfold add_file_to_project_text
    rw [reSubA_id pat1 (ins1 bid fid targetFilename) orig (not_infix_noMatch h1)]
    rw [reSubA_id pat2 (ins2 fid targetFilename) orig (not_infix_noMatch h2)]
    rw [reSubA_id pat3 (extensions_group_entry fid targetFilename) orig h3]
    rw [reSubA_id pat4 (sources_entry bid targetFilename) orig (not_infix_noMatch h4)]
  rw [runMain_ok fs root pick1 pick2 hfs]
  refine ⟨hno, rfl, ?_, ?_, rfl⟩
  · dsimp only
    rw [hno]
    exact fsWrite_self _ _ _
  · dsimp only
    rw [fsWrite_other _ _ (backupPath_ne root)]
    exact fsWrite_self _ _ _

/-- A descriptor containing none of the anchors. -/
def demoPlain : List Char := ("hello").data

def demoFSPlain : FS := fun p => if p = pbxprojPath "/r" then some demoPlain else none

theorem demoFSPlain_pbx : demoFSPlain (pbxprojPath "/r") = some demoPlain := by
  unfold demoFSPlain
  rw [if_pos rfl]

/-- Witness for C3 at a concrete anchor-free descriptor. -/
theorem claim_C3_witness :
    (demoFSPlain (pbxprojPath "/r") = some demoPlain ∧
      ¬ anchor1 <:+: demoPlain ∧ ¬ anchor2 <:+: demoPlain ∧
      (∀ v ∈ demoPlain.tails, v ≠ [] → matchToks pat3 v = none) ∧
      ¬ anchor4 <:+: demoPlain) ∧
    ((∀ bid fid, add_file_to_project_text demoPlain bid fid targetFilename = demoPlain) ∧
      (runMain demoFSPlain "/r" demoPick demoPick none).exitCode = 0 ∧
      (runMain demoFSPlain "/r" demoPick demoPick none).finalFS (pbxprojPath "/r") =
        some demoPlain ∧
      (runMain demoFSPlain "/r" demoPick demoPick none).finalFS (backupPath "/r") =
        some demoPlain ∧
      (runMain demoFSPlain "/r" demoPick demoPick none).stderr = []) :=
  ⟨⟨demoFSPlain_pbx, by decide, by decide, by decide, by decide⟩,
    claim_C3 demoFSPlain "/r" demoPick demoPick demoPlain demoFSPlain_pbx
      (by decide) (by decide) (by decide) (by decide)⟩

/-- C4: if the descriptor file does not exist at
`<project_root>/MindSync/MindSync.xcodeproj/project.pbxproj`, the tool
writes nothing (the file system is untouched, in particular no backup file
is created), reports the error to standard error, and exits with status 1
before any mutation is attempted. -/
theorem claim_C4 (fs : FS) (root : String) (pick1 pick2 : Fin 24 → Fin 16)
    (fault : Option (List Char)) (hfs : fs (pbxprojPath root) = none) :
    (runMain fs root pick1 pick2 fault).finalFS = fs ∧
    (runMain fs root pick1 pick2 fault).trace = [fs] ∧
    (runMain fs root pick1 pick2 fault).exitCode = 1 ∧
    (runMain fs root pick1 pick2 fault).stderr ≠ [] := by
  rw [runMain_missing fs root pick1 pick2 fault hfs]
  exact ⟨rfl, rfl, rfl, by simp⟩

def demoFSEmpty : FS := fun _ => none

/-- Witness for C4 on an empty file system. -/
theorem claim_C4_witness :
    demoFSEmpty (pbxprojPath "/r") = none ∧
    ((runMain demoFSEmpty "/r" demoPick demoPick none).finalFS = demoFSEmpty ∧
      (runMain demoFSEmpty "/r" demoPick demoPick none).trace = [demoFSEmpty] ∧
      (runMain demoFSEmpty "/r" demoPick demoPick none).exitCode = 1 ∧
      (runMain demoFSEmpty "/r" demoPick demoPick none).stderr ≠ []) :=
  ⟨rfl, claim_C4 demoFSEmpty "/r" demoPick demoPick none rfl⟩

/-- C5: the patch is not idempotent.  After one application all four anchor
occurrences are still present, so a second application (with its own fresh
identifiers) inserts all four entries again, while the entries inserted by
the first application are still present — the entries are duplicated. -/
theorem claim_C5 (content bid1 fid1 bid2 fid2 : List Char)
    (hb1 : hexOnly bid1) (hf1 : hexOnly fid1) (hb2 : hexOnly bid2) (hf2 : hexOnly fid2)
    (h1 : anchor1 <:+: content) (h2 : anchor2 <:+: content)
    (h3 : MatchableIn pat3 content) (h4 : anchor4 <:+: content) :
    (anchor1 <:+: add_file_to_project_text content bid1 fid1 targetFilename ∧
      anchor2 <:+: add_file_to_project_text content bid1 fid1 targetFilename ∧
      MatchableIn pat3 (add_file_to_project_text content bid1 fid1 targetFilename) ∧
      anchor4 <:+: add_file_to_project_text content bid1 fid1 targetFilename) ∧
    ((anchor1 ++ ins1 bid2 fid2 targetFilename) <:+:
        add_file_to_project_text
          (add_file_to_project_text content bid1 fid1 targetFilename)
          bid2 fid2 targetFilename ∧
      (anchor2 ++ ins2 fid2 targetFilename) <:+:
        add_file_to_project_text
          (add_file_to_project_text content bid1 fid1 targetFilename)
          bid2 fid2 targetFilename ∧
      (ext4 ++ extensions_group_entry fid2 targetFilename) <:+:
        add_file_to_project_text
          (add_file_to_project_text content bid1 fid1 targetFilename)
          bid2 fid2 targetFilename ∧
      (anchor4 ++ sources_entry bid2 targetFilename) <:+:
        add_file_to_project_text
          (add_file_to_project_text content bid1 fid1 targetFilename)
          bid2 fid2 targetFilename) ∧
    (ins1 bid1 fid1 targetFilename <:+:
        add_file_to_project_text
          (add_file_to_project_text content bid1 fid1 targetFilename)
          bid2 fid2 targetFilename ∧
      ins2 fid1 targetFilename <:+:
        add_file_to_project_text
          (add_file_to_project_text content bid1 fid1 targetFilename)
          bid2 fid2 targetFilename ∧
      extensions_group_entry fid1 targetFilename <:+:
        add_file_to_project_text
          (add_file_to_project_text content bid1 fid1 targetFilename)
          bid2 fid2 targetFilename ∧
      sources_entry bid1 targetFilename <:+:
        add_file_to_project_text
          (add_file_to_project_text content bid1 fid1 targetFilename)
          bid2 fid2 targetFilename) := by
  have k1 := patch_keeps_anchor1 bid1 fid1 h1
  have k2 := patch_keeps_anchor2 bid1 fid1 h2
  have k3 := patch_keeps_matchable3 bid1 fid1 h3
  have k4 := patch_keeps_anchor4 bid1 fid1 h4
  refine ⟨⟨k1, k2, k3, k4⟩,
    ⟨patch_creates_t1 hb2 hf2 k1, patch_creates_t2 hf2 k2,
     patch_creates_t3 hf2 k3, patch_creates_t4 k4⟩, ?_, ?_, ?_, ?_⟩
  · have e1 : ins1 bid1 fid1 targetFilename <:+:
        add_file_to_project_text content bid1 fid1 targetFilename := by
      obtain ⟨u, v, huv⟩ := patch_creates_t1 hb1 hf1 h1
      exact ⟨u ++ anchor1, v, by rw [← huv]; simp⟩
    exact patch_preserves (ne_nil_of_head ins1_head) (cond_pat1_ins1 hb1 hf1)
      (cond_pat2_ins1 hb1 hf1) (cond_pat3_ins1 hb1 hf1) (cond_pat4_ins1 hb1 hf1)
      bid2 fid2 e1
  · have e2 : ins2 fid1 targetFilename <:+:
        add_file_to_project_text content bid1 fid1 targetFilename := by
      obtain ⟨u, v, huv⟩ := patch_creates_t2 hf1 h2
      exact ⟨u ++ anchor2, v, by rw [← huv]; simp⟩
    exact patch_preserves (ne_nil_of_head ins2_head) (cond_pat1_ins2 hf1)
      (cond_pat2_ins2 hf1) (cond_pat3_ins2 hf1) (cond_pat4_ins2 hf1) bid2 fid2 e2
  · have e3 : extensions_group_entry fid1 targetFilename <:+:
        add_file_to_project_text content bid1 fid1 targetFilename := by
      obtain ⟨u, v, huv⟩ := patch_creates_t3 hf1 h3
      exact ⟨u ++ ext4, v, by rw [← huv]; simp⟩
    exact patch_preserves (ne_nil_of_head ege_head) (cond_pat1_ege hf1)
      (cond_pat2_ege hf1) (cond_pat3_ege hf1) (cond_pat4_ege hf1) bid2 fid2 e3
  · have e4 : sources_entry bid1 targetFilename <:+:
        add_file_to_project_text content bid1 fid1 targetFilename := by
      obtain ⟨u, v, huv⟩ := patch_creates_t4 h4
      exact ⟨u ++ anchor4, v, by rw [← huv]; simp⟩
    exact patch_preserves (ne_nil_of_head se_head) (cond_pat1_se hb1)
      (cond_pat2_se hb1) (cond_pat3_se hb1) (cond_pat4_se hb1) bid2 fid2 e4

/-- Witness for C5 at the concrete descriptor, with distinct concrete id
pairs for the two runs. -/
theorem claim_C5_witness :
    (hexOnly demoId1 ∧ hexOnly demoId2 ∧ anchor1 <:+: demoContent ∧
      anchor2 <:+: demoContent ∧ MatchableIn pat3 demoContent ∧
      anchor4 <:+: demoContent) ∧
    (anchor1 <:+: add_file_to_project_text demoContent demoId1 demoId1 targetFilename ∧
      (anchor1 ++ ins1 demoId2 demoId2 targetFilename) <:+:
        add_file_to_project_text
          (add_file_to_project_text demoContent demoId1 demoId1 targetFilename)
          demoId2 demoId2 targetFilename ∧
      ins1 demoId1 demoId1 targetFilename <:+:
        add_file_to_project_text
          (add_file_to_project_text demoContent demoId1 demoId1 targetFilename)
          demoId2 demoId2 targetFilename) := by
  have h := claim_C5 demoContent demoId1 demoId1 demoId2 demoId2
    demo_hex1 demo_hex1 demo_hex2 demo_hex2
    demo_anchor1 demo_anchor2 demo_matchable3 demo_anchor4
  exact ⟨⟨demo_hex1, demo_hex2, demo_anchor1, demo_anchor2, demo_matchable3,
      demo_anchor4⟩, h.1.1, h.2.1.1, h.2.2.1⟩

/-- C7: before any mutation of the descriptor, a backup with the original
content exists at the sibling `.pbxproj.backup` path: in every state of the
run's trace in which the descriptor does not hold its original content, the
backup file holds the original content; at the end of every run that got
past the existence check the backup still holds the original content (it is
not deleted on success); and the backup path is the descriptor path with
its suffix replaced by `.pbxproj.backup`. -/
theorem claim_C7 (fs : FS) (root : String) (pick1 pick2 : Fin 24 → Fin 16)
    (fault : Option (List Char)) (orig : List Char)
    (hfs : fs (pbxprojPath root) = some orig) :
    (∀ st ∈ (runMain fs root pick1 pick2 fault).trace,
        st (pbxprojPath root) ≠ some orig → st (backupPath root) = some orig) ∧
    (runMain fs root pick1 pick2 fault).finalFS (backupPath root) = some orig ∧
    backupPath root = root ++ "/MindSync/MindSync.xcodeproj/project.pbxproj.backup" := by
  cases fault with
  | none =>
    rw [runMain_ok fs root pick1 pick2 hfs]
    refine ⟨?_, ?_, backupPath_eq root⟩
    · intro st hst hne
      simp only [List.mem_cons, List.not_mem_nil, or_false] at hst
      rcases hst with rfl | rfl | rfl
      · exact absurd hfs hne
      · exact fsWrite_self _ _ _
      · rw [fsWrite_other _ _ (backupPath_ne root)]
        exact fsWrite_self _ _ _
    · dsimp only
      rw [fsWrite_other _ _ (backupPath_ne root)]
      exact fsWrite_self _ _ _
  | some broken =>
    rw [runMain_fault fs root pick1 pick2 broken hfs]
    refine ⟨?_, ?_, backupPath_eq root⟩
    · intro st hst hne
      simp only [List.mem_cons, List.not_mem_nil, or_false] at hst
      rcases hst with rfl | rfl | rfl | rfl
      · exact absurd hfs hne
      · exact fsWrite_self _ _ _
      · rw [fsWrite_other _ _ (backupPath_ne root)]
        exact fsWrite_self _ _ _
      · rw [fsWrite_other _ _ (backupPath_ne root),
          fsWrite_other _ _ (backupPath_ne root)]
        exact fsWrite_self _ _ _
    · dsimp only
      rw [fsWrite_other _ _ (backupPath_ne root),
        fsWrite_other _ _ (backupPath_ne root)]
      exact fsWrite_self _ _ _

/-- Witness for C7 on a successful run over the concrete file system. -/
theorem claim_C7_witness :
    demoFS (pbxprojPath "/r") = some demoContent ∧
    ((∀ st ∈ (runMain demoFS "/r" demoPick demoPick none).trace,
        st (pbxprojPath "/r") ≠ some demoContent →
          st (backupPath "/r") = some demoContent) ∧
      (runMain demoFS "/r" demoPick demoPick none).finalFS (backupPath "/r") =
        some demoContent ∧
      backupPath "/r" = "/r" ++ "/MindSync/MindSync.xcodeproj/project.pbxproj.backup") :=
  ⟨demoFS_pbx, claim_C7 demoFS "/r" demoPick demoPick none demoContent demoFS_pbx⟩

end XcodePatch
